import Mathlib

/-!
Verification of the page-feature registry and page-encryption subsystem
(`src/common/pagefeat.c`, `src/backend/crypto/bufenc.c`).

Shallow embedding conventions:
* C byte strings (feature names, file contents) are modeled as `List Char`.
* `uint16` fields are modeled as `Nat` with explicit reduction `% 65536`
  (`u16`) at the points where C performs the narrowing conversion;
  intermediate C arithmetic on promoted `int` is modeled on `Int`.
* Fatal errors (`pg_error`, `my_error`) and boolean failures are modeled with
  `Option` / `Bool` results.
* The registry mutation functions return the updated structure; note that
  `PageFeatureSetAddFeatureByName` can update `builtin_bitmap` even on a
  failing call, exactly as the C code does.
-/

/-- Truncate to the range of C `uint16`, as done by assignment to a
`uint16` field or parameter. -/
def u16 (n : Nat) : Nat := n % 65536

/-- Conversion of a C `int` value to `uint16` (two's-complement reduction
mod 2^16; `Int.emod` is nonnegative for a positive modulus). -/
def intToU16 (i : Int) : Nat := (i % 65536).toNat

/-- `(size + 7) & ~7`: round up to the next multiple of 8
(`PageFeatureSetAddFeatureByName`, pagefeat.c line 410), in unbounded
arithmetic; the C narrowing back to `uint16` is applied separately. -/
def roundUp8 (n : Nat) : Nat := (n + 7) / 8 * 8

/-- An allocated page-feature descriptor (`AllocatedPageFeatureDesc`,
pagefeat.h). The C struct leaves `isbuiltin`/`builtin` unset for
user-defined features (malloc'd storage); the model takes them as
`false`/`0` there. -/
structure AllocatedPageFeatureDesc where
  name : List Char
  offset : Nat
  size : Nat
  isbuiltin : Bool
  builtin : Nat
deriving DecidableEq, Repr

/-- A page feature set (`PageFeatureSetData`, pagefeat.h). `feat_count` of
the C struct is represented by `feats.length`. -/
structure PageFeatureSetData where
  name : List Char
  builtin_bitmap : Nat
  bytes_managed : Nat
  bytes_used : Nat
  feat_capacity : Nat
  locked : Bool
  feats : List AllocatedPageFeatureDesc
deriving DecidableEq, Repr

/-- `feat_count` field of the C struct. -/
def PageFeatureSetData.feat_count (pfs : PageFeatureSetData) : Nat :=
  pfs.feats.length

/-- Number of built-in features (`PF_MAX_FEATURE`): PF_ENCRYPTION_TAG = 0,
PF_EXT_CHECKSUMS = 1. -/
def PF_MAX_FEATURE : Nat := 2

/-- `MAX_PAGE_FEATURES` (pagefeat.h). -/
def MAX_PAGE_FEATURES : Nat := 20

/-- `builtin_feature_descs` (pagefeat.c lines 78-83): name and default size
for each built-in feature, indexed by feature id. -/
def builtin_feature_descs : List (List Char × Nat) :=
  [("encryption_tags".toList, 0), ("extended_checksums".toList, 64)]

/-- Name of a built-in feature. -/
def builtinName (i : Nat) : List Char :=
  (builtin_feature_descs.getD i ([], 0)).1

/-- Default size of a built-in feature
(`PageFeatureBuiltinFeatureSize`). -/
def PageFeatureBuiltinFeatureSize (i : Nat) : Nat :=
  (builtin_feature_descs.getD i ([], 0)).2

/-- The scan over `builtin_feature_descs` in
`PageFeatureSetAddFeatureByName` (pagefeat.c lines 424-440): index of the
first built-in whose name matches, if any. -/
def findBuiltin (name : List Char) : Option Nat :=
  (List.range PF_MAX_FEATURE).find? (fun i => builtinName i = name)

/-- `NewPageFeatureSet` (pagefeat.c lines 644-664). `strncpy` with
`PAGE_FEATURE_NAME_LEN - 1` keeps at most 19 characters of the name. -/
def NewPageFeatureSet (name : List Char) (bytes_capacity max_features : Nat) :
    PageFeatureSetData :=
  { name := name.take 19
    builtin_bitmap := 0
    bytes_managed := u16 bytes_capacity
    bytes_used := 0
    feat_capacity := u16 max_features
    locked := false
    feats := [] }

/-- `EmptyPageFeatureSet` (pagefeat.c lines 666-681): the locked, empty set
installed when no features are enabled. -/
def EmptyPageFeatureSet : PageFeatureSetData :=
  { name := "empty".toList
    builtin_bitmap := 0
    bytes_managed := 0
    bytes_used := 0
    feat_capacity := 0
    locked := true
    feats := [] }

/-- The tail of `PageFeatureSetAddFeatureByName` (pagefeat.c lines
447-459): append the descriptor, with offset = current `bytes_used`, and
advance `bytes_used` (a `uint16` field). -/
def appendFeat (pfs : PageFeatureSetData) (name : List Char) (sz : Nat)
    (isb : Bool) (bi : Nat) : PageFeatureSetData :=
  { pfs with
    feats := pfs.feats ++ [⟨name.take 19, pfs.bytes_used, sz, isb, bi⟩]
    bytes_used := u16 (pfs.bytes_used + sz) }

/-- `PageFeatureSetAddFeatureByName` (pagefeat.c lines 395-463).
Returns the C `bool` result together with the (possibly mutated)
structure; note the built-in bitmap is updated before the final
zero-size check, so a failing call can still set a bitmap bit. -/
def PageFeatureSetAddFeatureByName (pfs : PageFeatureSetData)
    (name : List Char) (size0 : Nat) : Bool × PageFeatureSetData :=
  if pfs.feats.length ≥ pfs.feat_capacity then (false, pfs)
  else
    let size1 := u16 (roundUp8 (u16 size0))
    if (size1 : Int) > (pfs.bytes_managed : Int) - (pfs.bytes_used : Int) then
      (false, pfs)
    else if pfs.feats.any (fun d => d.name = name) then (false, pfs)
    else
      match findBuiltin name with
      | some i =>
        if pfs.locked then (false, pfs)
        else
          let pfs1 := { pfs with builtin_bitmap := pfs.builtin_bitmap ||| (1 <<< i) }
          let size2 := if size1 = 0 then PageFeatureBuiltinFeatureSize i else size1
          if size2 = 0 then (false, pfs1)
          else (true, appendFeat pfs1 name size2 true i)
      | none =>
        if size1 = 0 then (false, pfs)
        else (true, appendFeat pfs name size1 false 0)

/-- `PageFeatureSetAddFeature` (pagefeat.c lines 375-381). -/
def PageFeatureSetAddFeature (pfs : PageFeatureSetData) (feature : Nat)
    (size : Nat) : Bool × PageFeatureSetData :=
  PageFeatureSetAddFeatureByName pfs (builtinName feature) size

/-- `PageFeatureSetHasNamedFeature` (pagefeat.c lines 127-137). -/
def PageFeatureSetHasNamedFeature (pfs : PageFeatureSetData)
    (feat_name : List Char) : Bool :=
  pfs.feats.any (fun d => d.name = feat_name)

/-- `PageFeatureSetNamedFeatureSize` (pagefeat.c lines 155-168). The C
loop iterates over the process-global `cluster_page_features`, not over
the `pfs` argument, so the model takes that global as an explicit first
argument. -/
def PageFeatureSetNamedFeatureSize (cluster_page_features : PageFeatureSetData)
    (pfs : PageFeatureSetData) (feat_name : List Char) : Nat :=
  match cluster_page_features.feats.find? (fun d => d.name = feat_name) with
  | some d => d.size
  | none => 0

/-- `PageFeatureSetFeatureSize` (pagefeat.c lines 148-152). -/
def PageFeatureSetFeatureSize (cluster_page_features : PageFeatureSetData)
    (pfs : PageFeatureSetData) (feature : Nat) : Nat :=
  PageFeatureSetNamedFeatureSize cluster_page_features pfs (builtinName feature)

/-- `PageFeatureSetNamedFeatureOffset` (pagefeat.c lines 219-239): the
stored end-relative offset is converted to a start-relative one by
`BLCKSZ - offset - size`, computed in C `int` arithmetic and returned as
`uint16`. `BLCKSZ` is a compile-time constant, taken here as the
parameter `blcksz`. -/
def PageFeatureSetNamedFeatureOffset (blcksz : Nat) (pfs : PageFeatureSetData)
    (feat_name : List Char) : Nat :=
  match pfs.feats.find? (fun d => d.name = feat_name) with
  | some d => intToU16 ((blcksz : Int) - (d.offset : Int) - (d.size : Int))
  | none => 0

/-- `PageFeatureSetFeatureOffset` (pagefeat.c lines 211-216). -/
def PageFeatureSetFeatureOffset (blcksz : Nat) (pfs : PageFeatureSetData)
    (feature : Nat) : Nat :=
  PageFeatureSetNamedFeatureOffset blcksz pfs (builtinName feature)

/-- The running-offset reassignment performed while copying descriptors in
`OptimizePageFeatureSet` (`descs[cur_feat].offset = cur_off; cur_off +=
descs[cur_feat].size`); the `offset` field is `uint16`. -/
def assignOffsets (off : Nat) : List AllocatedPageFeatureDesc →
    List AllocatedPageFeatureDesc
  | [] => []
  | d :: ds => { d with offset := u16 off } :: assignOffsets (off + d.size) ds

/-- `OptimizePageFeatureSet` (pagefeat.c lines 300-357): no-op when locked,
when no built-in bit is set, or with at most one descriptor; otherwise the
built-ins present in the bitmap are placed first in ascending bit order
(first matching descriptor for each bit), followed by the non-built-in
descriptors in order, with offsets reassigned as running sums.  The C code
copies `feat_count` descriptors back; the model copies the constructed
list, which has exactly that length whenever every descriptor marked
built-in has its bitmap bit set and built-in indices are not duplicated
(the well-formedness conditions of the theorems below). -/
def OptimizePageFeatureSet (pfs : PageFeatureSetData) : PageFeatureSetData :=
  if pfs.locked ∨ pfs.builtin_bitmap = 0 ∨ pfs.feats.length ≤ 1 then pfs
  else
    let builtins := (List.range PF_MAX_FEATURE).filterMap
      (fun i =>
        if pfs.builtin_bitmap &&& (1 <<< i) ≠ 0 then
          pfs.feats.find? (fun d => d.isbuiltin && d.builtin = i)
        else none)
    let users := pfs.feats.filter (fun d => !d.isbuiltin)
    { pfs with feats := assignOffsets 0 (builtins ++ users) }

/-! ### Registry persistence (pagefeat.c lines 465-641)

The catalog file is modeled as its exact character content.  `fprintf`
with the formats `"features %d %d\n"` and `"%.20s=%d,%d\n"` is modeled by
decimal printing, and the `fscanf` loop with formats `"features %d %d\n"`
and `"%20[^=]=%d,%d\n"` by a parser with C `fscanf` semantics: ordinary
characters match exactly, `%d` skips whitespace and reads an optional sign
and at least one digit, `%[^=]` reads at least one and at most 20
characters different from `=` without skipping whitespace, and a
whitespace directive (`\n`, space) consumes any run of whitespace,
including none. -/

/-- C `isspace`. -/
def isSpaceChar (c : Char) : Bool :=
  c = ' ' || c = '\t' || c = '\n' || c = '\x0b' || c = '\x0c' || c = '\r'

/-- Decimal printing helper: the fuel argument bounds the recursion depth
(any fuel above the digit count gives the digits of `n`, most significant
first). -/
def showNatAux : Nat → Nat → List Char
  | 0, _ => []
  | fuel + 1, n =>
    if n < 10 then [Nat.digitChar n]
    else showNatAux fuel (n / 10) ++ [Nat.digitChar (n % 10)]

/-- Decimal digit characters of `n`, most significant first (`%d` of a
nonnegative value). -/
def showNat (n : Nat) : List Char := showNatAux (n + 1) n

/-- Numeric value of a list of decimal digit characters. -/
def digitsVal (ds : List Char) : Nat :=
  ds.foldl (fun a c => a * 10 + (c.toNat - 48)) 0

/-- `fscanf` `%d`: skip whitespace, then an optional sign and at least one
digit; returns the value and the unconsumed input. -/
def parseIntC (cs : List Char) : Option (Int × List Char) :=
  let cs1 := cs.dropWhile isSpaceChar
  match cs1 with
  | '-' :: rest =>
    let ds := rest.takeWhile Char.isDigit
    if ds = [] then none
    else some (-(digitsVal ds : Int), rest.drop ds.length)
  | '+' :: rest =>
    let ds := rest.takeWhile Char.isDigit
    if ds = [] then none
    else some ((digitsVal ds : Int), rest.drop ds.length)
  | _ =>
    let ds := cs1.takeWhile Char.isDigit
    if ds = [] then none
    else some ((digitsVal ds : Int), cs1.drop ds.length)

/-- `fscanf` ordinary-character directive. -/
def parseChar (c : Char) : List Char → Option (List Char)
  | x :: rest => if x = c then some rest else none
  | [] => none

/-- `fscanf` literal sequence. -/
def parseLit (lit cs : List Char) : Option (List Char) :=
  if lit.isPrefixOf cs then some (cs.drop lit.length) else none

/-- `fscanf(fp, "features %d %d\n", &count, &size)` (pagefeat.c line
476), including the trailing whitespace skip of the `\n` directive. -/
def parseHeader (cs : List Char) : Option (Int × Int × List Char) :=
  match parseLit "features".toList cs with
  | none => none
  | some cs1 =>
    match parseIntC cs1 with
    | none => none
    | some (count, cs2) =>
      match parseIntC cs2 with
      | none => none
      | some (size, cs3) => some (count, size, cs3.dropWhile isSpaceChar)

/-- `fscanf(fp, "%20[^=]=%d,%d\n", feat_name, &feat_off, &feat_size)`
(pagefeat.c line 508). -/
def parseFeatLine (cs : List Char) :
    Option (List Char × Int × Int × List Char) :=
  let nm := (cs.takeWhile (fun c => c ≠ '=')).take 20
  if nm = [] then none
  else
    match parseChar '=' (cs.drop nm.length) with
    | none => none
    | some cs1 =>
      match parseIntC cs1 with
      | none => none
      | some (off, cs2) =>
        match parseChar ',' cs2 with
        | none => none
        | some cs3 =>
          match parseIntC cs3 with
          | none => none
          | some (sz, cs4) => some (nm, off, sz, cs4.dropWhile isSpaceChar)

/-- The line-reading loop of `ReadPageFeatureSet` (pagefeat.c lines
505-552): parse feature lines while they match, validating each offset
against the running byte total and replaying
`PageFeatureSetAddFeatureByName`; on the first non-matching line check
the accumulated count and size against the header.  `none` models the
fatal `pg_error` exits.  `fuel` bounds the recursion; the caller passes
more fuel than lines can possibly be consumed. -/
def readFeatLoop (fuel : Nat) (cs : List Char) (pfs : PageFeatureSetData)
    (count size tot_size tot_cnt : Int) : Option PageFeatureSetData :=
  match fuel with
  | 0 => none
  | fuel + 1 =>
    match parseFeatLine cs with
    | none =>
      if tot_cnt ≠ count then none
      else if tot_size ≠ size then none
      else some { pfs with locked := true }
    | some (nm, off, sz, rest) =>
      if nm.length = 0 then none
      else if off < 0 ∨ off > size ∨ sz ≤ 0 ∨ sz > size then none
      else if off ≠ tot_size then none
      else
        match PageFeatureSetAddFeatureByName pfs nm (intToU16 sz) with
        | (false, _) => none
        | (true, pfs1) =>
          readFeatLoop fuel rest pfs1 count size (tot_size + sz) (tot_cnt + 1)

/-- `ReadPageFeatureSet` (pagefeat.c lines 466-568) on the content of the
catalog file.  `maxReserved` stands for the compile-time constant
`MaxReservedPageSize` (defined outside these source files) and `name` for
the set name derived from the path. -/
def ReadPageFeatureSet (maxReserved : Nat) (name content : List Char) :
    Option PageFeatureSetData :=
  match parseHeader content with
  | none => none
  | some (count, size, rest) =>
    if count < 0 ∨ count > (MAX_PAGE_FEATURES : Int) then none
    else if size < 0 ∨ size > (maxReserved : Int) then none
    else
      readFeatLoop (rest.length + 1) rest
        (NewPageFeatureSet name size.toNat count.toNat) count size 0 0

/-- One catalog line `"%.20s=%d,%d\n"` (pagefeat.c line 615). -/
def featLine (d : AllocatedPageFeatureDesc) : List Char :=
  d.name.take 20 ++ '=' :: showNat d.offset ++ ',' :: showNat d.size ++ ['\n']

/-- The feature-writing loop of `WritePageFeatureSet` (pagefeat.c lines
605-622), validating that offsets line up and sizes are nonzero; returns
the emitted lines and the accumulated byte total. -/
def writeFeatLoop : List AllocatedPageFeatureDesc → Nat →
    Option (List Char × Nat)
  | [], tot_size => some ([], tot_size)
  | d :: ds, tot_size =>
    if d.offset ≠ tot_size ∨ d.size = 0 then none
    else
      match writeFeatLoop ds (tot_size + d.size) with
      | none => none
      | some (content, tot) => some (featLine d ++ content, tot)

/-- `WritePageFeatureSet` (pagefeat.c lines 571-641): optimize the layout,
emit the header and feature lines, validate the totals and lock the set.
The exclusive-create open (`"wx"`) is modeled by returning the content to
be stored at the (fresh) destination path; `none` models the fatal
`pg_error` exits. -/
def WritePageFeatureSet (pfs : PageFeatureSetData) :
    Option (List Char × PageFeatureSetData) :=
  let pfs1 := OptimizePageFeatureSet pfs
  let header := "features ".toList ++ showNat pfs1.feats.length ++
    ' ' :: showNat pfs1.bytes_used ++ ['\n']
  match writeFeatLoop pfs1.feats 0 with
  | none => none
  | some (body, tot) =>
    if tot ≠ pfs1.bytes_used then none
    else some (header ++ body, { pfs1 with locked := true })

/-- `ClusterPageFeatureInit` (pagefeat.c lines 684-706): a `NULL` or empty
set name installs `EmptyPageFeatureSet` without touching the filesystem;
otherwise the catalog under `pg_pagefeat` is loaded (`fs` maps a path to
the content of the file stored there, and `last_dir_separator` makes the
set's name start at the final slash).  `none` models the fatal error when
loading fails. -/
def ClusterPageFeatureInit (maxReserved : Nat)
    (fs : List Char → Option (List Char)) (data_dir : List Char)
    (name : Option (List Char)) : Option PageFeatureSetData :=
  match name with
  | none => some EmptyPageFeatureSet
  | some nm =>
    if nm = [] then some EmptyPageFeatureSet
    else
      match fs (data_dir ++ "/pg_pagefeat/".toList ++ nm) with
      | none => none
      | some content => ReadPageFeatureSet maxReserved ('/' :: nm) content

/-! ### Nonce allocator (bufenc.c lines 26-89)

Each process holds a private `uint64` counter `_iv_counter` (initially 0)
and refills it in batches of `2 ^ IV_MASK_BITS` from the shared atomic
counter of pg_control, reached through `IncrementIVCounter`.  The shared
atomic is modeled as the sequence `fetch : Nat → Nat` of values returned
by successive `IncrementIVCounter` calls, with `nfetch` counting the calls
made so far across all processes. -/

/-- `IV_MASK_BITS` (bufenc.c line 36). -/
def IV_MASK_BITS : Nat := 10

/-- `IV_COUNTER_MASK` (bufenc.c line 37). -/
def IV_COUNTER_MASK : Nat := (1 <<< IV_MASK_BITS) - 1

/-- Modulus of C `uint64` arithmetic. -/
def U64MOD : Nat := 2 ^ 64

/-- One `PlaceNewIV` call (bufenc.c lines 68-89) of one process, acting on
(the number of shared-atomic fetches made so far, the process's private
`_iv_counter`).  Returns the counter value placed into the IV and the
updated pair. -/
def PlaceNewIV (fetch : Nat → Nat) (nfetch ctr : Nat) : Nat × Nat × Nat :=
  let refill := ctr &&& IV_COUNTER_MASK = 0
  let nfetch1 := if refill then nfetch + 1 else nfetch
  let c := if refill then (fetch nfetch <<< IV_MASK_BITS) % U64MOD else ctr
  (c, nfetch1, (c + 1) % U64MOD)

/-- The 16-byte IV built by `PlaceNewIV`: high-order 8 bytes zero-filled
(`memset`), low-order 8 bytes the little-endian image of the counter
(`memcpy` of the `uint64`). -/
def ivBytes (c : Nat) : List Nat :=
  List.replicate 8 0 ++ (List.range 8).map (fun i => c / 256 ^ i % 256)

/-- The cross-process state of the nonce allocator: the shared atomic's
fetch count and every process's private counter (all initially zero). -/
structure NonceSystem where
  nfetch : Nat
  ctr : Nat → Nat

/-- Initial nonce state: no fetches yet, every `_iv_counter` zero. -/
def initNonceSystem : NonceSystem := ⟨0, fun _ => 0⟩

/-- Process `p` performs one `PlaceNewIV` call. -/
def nonceStep (fetch : Nat → Nat) (s : NonceSystem) (p : Nat) :
    Nat × NonceSystem :=
  let r := PlaceNewIV fetch s.nfetch (s.ctr p)
  (r.1, ⟨r.2.1, fun q => if q = p then r.2.2 else s.ctr q⟩)

/-- Run an interleaving: `sched` lists, in global order, which process
performs each `PlaceNewIV` call.  Returns the final state and the emitted
counter values in order. -/
def runNonce (fetch : Nat → Nat) : List Nat → NonceSystem →
    NonceSystem × List Nat
  | [], s => (s, [])
  | p :: rest, s =>
    let r := nonceStep fetch s p
    let rr := runNonce fetch rest r.2
    (rr.1, r.1 :: rr.2)

/-! ### Page crypto engine (bufenc.c lines 96-265)

Pages are byte lists.  The AEAD primitive (`pg_cipher_encrypt` /
`pg_cipher_decrypt`, supplied by the cipher library and assumed correct)
is abstracted as a structure bundling the two functions with their
contract. -/

/-- Bytes `[off, off+len)` of a byte buffer. -/
def readBytes (p : List Nat) (off len : Nat) : List Nat :=
  (p.drop off).take len

/-- Overwrite bytes starting at `off` with `bs` (in-place `memcpy`). -/
def writeBytes (p : List Nat) (off : Nat) (bs : List Nat) : List Nat :=
  p.take off ++ bs ++ p.drop (off + bs.length)

/-- The AEAD primitive with its assumed contract: encryption preserves
length and produces a `taglen`-byte tag, decryption inverts encryption
under the same IV/AAD/tag and fails on any AAD mismatch. -/
structure PgCipher where
  enc : List Nat → List Nat → List Nat → List Nat × List Nat
  dec : List Nat → List Nat → List Nat → List Nat → Option (List Nat)
  taglen : Nat
  enc_length : ∀ pt iv aad, (enc pt iv aad).1.length = pt.length
  enc_taglen : ∀ pt iv aad, (enc pt iv aad).2.length = taglen
  dec_of_enc : ∀ pt iv aad, dec (enc pt iv aad).1 iv aad (enc pt iv aad).2 = some pt
  dec_bad_aad : ∀ pt iv aad aad2, aad2 ≠ aad →
    dec (enc pt iv aad).1 iv aad2 (enc pt iv aad).2 = none

/-- The constants fixed by `InitializeBufferEncryption` (bufenc.c lines
129-180): the block size, `PageEncryptOffset`, and the offset/size of the
encryption feature's page slot as obtained from the feature registry. -/
structure BufEncConfig where
  blcksz : Nat
  pageEncryptOffset : Nat
  encryption_offset : Nat
  encryption_size : Nat

/-- `file_encryption_tag_size = encryption_size - BUFENC_IV_SIZE`
(a C `int`, possibly negative). -/
def BufEncConfig.tagSizeI (cfg : BufEncConfig) : Int :=
  (cfg.encryption_size : Int) - 16

/-- `file_encryption_page_size = encryption_offset - PageEncryptOffset`
(a C `int`, possibly negative). -/
def BufEncConfig.pageSizeI (cfg : BufEncConfig) : Int :=
  (cfg.encryption_offset : Int) - (cfg.pageEncryptOffset : Int)

/-- A sane initialized engine: the unencrypted header precedes the
encrypted body, the feature slot holds the 16-byte IV plus a nonempty
tag, and the slot fits in the page. -/
def BufEncConfig.valid (cfg : BufEncConfig) : Prop :=
  cfg.pageEncryptOffset ≤ cfg.encryption_offset ∧
  16 < cfg.encryption_size ∧
  cfg.encryption_offset + cfg.encryption_size ≤ cfg.blcksz

/-- `setup_additional_authenticated_data` (bufenc.c lines 255-265): the
unencrypted header prefix of the page followed by the file number and
block number (both `uint32`).  The fully-padded C struct's byte image is
abstracted by this equality-faithful list; note that the
`relation_is_permanent` parameter is not used by the C function's body. -/
def setup_additional_authenticated_data (cfg : BufEncConfig)
    (page : List Nat) (blkno : Nat) (relation_is_permanent : Bool)
    (fileno : Nat) : List Nat :=
  readBytes page 0 cfg.pageEncryptOffset ++ [fileno % 2 ^ 32, blkno % 2 ^ 32]

/-- `EncryptPage` (bufenc.c lines 183-218): place a fresh IV in the page's
feature slot, build the AAD, encrypt the body in place and store the
authentication tag after the IV.  Besides the updated page it returns the
nonce state threaded through `PlaceNewIV`. -/
def EncryptPage (A : PgCipher) (cfg : BufEncConfig) (fetch : Nat → Nat)
    (nfetch ctr : Nat) (page : List Nat) (relation_is_permanent : Bool)
    (blkno fileno : Nat) : List Nat × Nat × Nat :=
  let r := PlaceNewIV fetch nfetch ctr
  let iv := ivBytes r.1
  let page1 := writeBytes page cfg.encryption_offset iv
  let aad := if 0 < cfg.tagSizeI then
      setup_additional_authenticated_data cfg page1 blkno relation_is_permanent fileno
    else []
  let pt := readBytes page1 cfg.pageEncryptOffset cfg.pageSizeI.toNat
  let et := A.enc pt iv aad
  let page2 := writeBytes page1 cfg.pageEncryptOffset et.1
  let page3 := writeBytes page2 (cfg.encryption_offset + 16) et.2
  (page3, r.2)

/-- `DecryptPage` (bufenc.c lines 220-252): read the stored IV and tag
from the feature slot, rebuild the AAD and decrypt the body in place;
`none` models the fatal "cannot decrypt page" error on authentication
failure. -/
def DecryptPage (A : PgCipher) (cfg : BufEncConfig) (page : List Nat)
    (relation_is_permanent : Bool) (blkno fileno : Nat) : Option (List Nat) :=
  let iv := readBytes page cfg.encryption_offset 16
  let tag := readBytes page (cfg.encryption_offset + 16) cfg.tagSizeI.toNat
  let aad := if 0 < cfg.tagSizeI then
      setup_additional_authenticated_data cfg page blkno relation_is_permanent fileno
    else []
  let ct := readBytes page cfg.pageEncryptOffset cfg.pageSizeI.toNat
  match A.dec ct iv aad tag with
  | some pt => some (writeBytes page cfg.pageEncryptOffset pt)
  | none => none

/-! ### Arithmetic helpers -/

theorem roundUp8_ge (n : Nat) : n ≤ roundUp8 n := by
  unfold roundUp8; omega

theorem roundUp8_le_add (n : Nat) : roundUp8 n ≤ n + 7 := by
  unfold roundUp8; omega

theorem roundUp8_mono {a b : Nat} (h : a ≤ b) : roundUp8 a ≤ roundUp8 b := by
  unfold roundUp8
  exact Nat.mul_le_mul_right 8 (Nat.div_le_div_right (by omega))

theorem roundUp8_mod8 (n : Nat) : roundUp8 n % 8 = 0 := by
  unfold roundUp8; omega

theorem roundUp8_of_mod8 {n : Nat} (h : n % 8 = 0) : roundUp8 n = n := by
  unfold roundUp8; omega

theorem u16_eq_of_lt {n : Nat} (h : n < 65536) : u16 n = n := by
  unfold u16; omega

theorem u16_le (n : Nat) : u16 n ≤ n := by
  unfold u16; exact Nat.mod_le _ _

theorem intToU16_of_range {i : Int} (h0 : 0 ≤ i) (h1 : i < 65536) :
    intToU16 i = i.toNat := by
  unfold intToU16
  rw [Int.emod_eq_of_lt h0 h1]

/-! ### C7: empty feature-set initialization -/

/-- A registry holding a single user feature, used as a concrete test
fixture. -/
def pfsWithAudit : PageFeatureSetData :=
  { name := "t".toList
    builtin_bitmap := 0
    bytes_managed := 96
    bytes_used := 8
    feat_capacity := 4
    locked := false
    feats := [⟨"audit".toList, 0, 8, false, 0⟩] }

/-- C7 (corrected): with a `NULL` or empty feature-set name,
`ClusterPageFeatureInit` succeeds without consulting the filesystem and
installs the "no features enabled" registry with zero managed bytes, zero
used bytes, zero features and an empty built-in bitmap — but that registry
is LOCKED (`EmptyPageFeatureSet` sets `locked = true`), not unlocked as
the claim states. -/
theorem C7_empty_init (maxReserved : Nat) (fs : List Char → Option (List Char))
    (data_dir : List Char) (name : Option (List Char))
    (h : name = none ∨ name = some []) :
    ClusterPageFeatureInit maxReserved fs data_dir name = some EmptyPageFeatureSet ∧
    EmptyPageFeatureSet.locked = true ∧
    EmptyPageFeatureSet.bytes_managed = 0 ∧
    EmptyPageFeatureSet.bytes_used = 0 ∧
    EmptyPageFeatureSet.feat_count = 0 ∧
    EmptyPageFeatureSet.builtin_bitmap = 0 := by
  rcases h with h | h <;> subst h <;>
    exact ⟨rfl, rfl, rfl, rfl, rfl, rfl⟩

/-- Witness for C7 at a concrete data directory, filesystem and `NULL`
name. -/
theorem C7_empty_init_witness :
    ClusterPageFeatureInit 256 (fun _ => none) "dd".toList none =
      some EmptyPageFeatureSet ∧
    EmptyPageFeatureSet.locked = true ∧
    EmptyPageFeatureSet.bytes_managed = 0 ∧
    EmptyPageFeatureSet.bytes_used = 0 ∧
    EmptyPageFeatureSet.feat_count = 0 ∧
    EmptyPageFeatureSet.builtin_bitmap = 0 :=
  C7_empty_init 256 (fun _ => none) "dd".toList none (Or.inl rfl)

/-- Counterexample to C7 as stated: the registry installed for a `NULL`
feature-set name has `locked = true`, not `locked = false` as the claim's
"unlocked" requires. -/
theorem C7_counterexample :
    (ClusterPageFeatureInit 256 (fun _ => none) "dd".toList none).map
      PageFeatureSetData.locked = some true := rfl

/-! ### C8: size lookup reads the process-global registry -/

/-- C8 (code bug evaluation): `PageFeatureSetNamedFeatureSize` answers
from the process-global `cluster_page_features`, not from its `pfs`
argument: with the global lacking "audit" it returns 0 although `pfs`
stores "audit" with size 8, and with the roles swapped it returns 8
although the queried registry is empty. -/
theorem C8_global_lookup :
    PageFeatureSetNamedFeatureSize EmptyPageFeatureSet pfsWithAudit
      "audit".toList = 0 ∧
    PageFeatureSetNamedFeatureSize pfsWithAudit EmptyPageFeatureSet
      "audit".toList = 8 := ⟨rfl, rfl⟩

/-! ### C9: offset conversion formula -/

/-- C9 (confirmed): for a feature present in `pfs` with stored descriptor
`(offset, size)` (first match of the C loop), the returned offset is
`blcksz - offset - size`, provided the descriptor lies inside the page
and the block size fits `uint16` (as every real `BLCKSZ` does); for an
absent name the result is 0. -/
theorem C9_offset_conversion (blcksz : Nat) (pfs : PageFeatureSetData)
    (nm : List Char) :
    (∀ d, pfs.feats.find? (fun d => d.name = nm) = some d →
      d.offset + d.size ≤ blcksz → blcksz < 65536 →
      PageFeatureSetNamedFeatureOffset blcksz pfs nm =
        blcksz - d.offset - d.size) ∧
    (pfs.feats.find? (fun d => d.name = nm) = none →
      PageFeatureSetNamedFeatureOffset blcksz pfs nm = 0) := by
  constructor
  · intro d hf h1 h2
    unfold PageFeatureSetNamedFeatureOffset
    rw [hf]
    show intToU16 ((blcksz : Int) - (d.offset : Int) - (d.size : Int)) =
      blcksz - d.offset - d.size
    rw [intToU16_of_range (by omega) (by omega)]
    omega
  · intro hf
    unfold PageFeatureSetNamedFeatureOffset
    rw [hf]

/-- Witness for C9 with a present and an absent feature name. -/
theorem C9_offset_conversion_witness :
    PageFeatureSetNamedFeatureOffset 8192 pfsWithAudit "audit".toList =
      8192 - 0 - 8 ∧
    PageFeatureSetNamedFeatureOffset 8192 pfsWithAudit "zzzz".toList = 0 :=
  ⟨(C9_offset_conversion 8192 pfsWithAudit "audit".toList).1
      ⟨"audit".toList, 0, 8, false, 0⟩ (by decide) (by decide) (by decide),
   (C9_offset_conversion 8192 pfsWithAudit "zzzz".toList).2 (by decide)⟩

/-! ### C3: capacity invariant -/

/-- The per-call byte cost named by claim C3 (claim-side definition): the
requested size rounded up to the next multiple of 8, except that a call
naming a built-in feature with requested size 0 counts the built-in's
default size. -/
def claimRoundedSize (call : List Char × Nat) : Nat :=
  match findBuiltin call.1 with
  | some i => if call.2 = 0 then PageFeatureBuiltinFeatureSize i else roundUp8 call.2
  | none => roundUp8 call.2

/-- All registry states along a sequence of
`PageFeatureSetAddFeatureByName` calls, the initial one included. -/
def addStates (pfs0 : PageFeatureSetData) (calls : List (List Char × Nat)) :
    List PageFeatureSetData :=
  calls.scanl (fun pfs c => (PageFeatureSetAddFeatureByName pfs c.1 c.2).2) pfs0

theorem findBuiltin_lt {nm : List Char} {i : Nat}
    (h : findBuiltin nm = some i) : i < PF_MAX_FEATURE := by
  have := List.mem_of_find?_eq_some h
  simpa using this

theorem builtinDefault_le {i : Nat} (h : i < PF_MAX_FEATURE) :
    PageFeatureBuiltinFeatureSize i ≤ 64 := by
  have h2 : i < 2 := h
  interval_cases i <;> decide

/-- If the `uint16`-narrowed rounded size is zero while the request is
nonzero, the unbounded rounded size is at least 64 (in fact at least
65529). -/
theorem wrapzero_roundUp8_ge {s : Nat} (h : u16 (roundUp8 (u16 s)) = 0)
    (hs : s ≠ 0) : 64 ≤ roundUp8 s := by
  have h1 : roundUp8 (u16 s) % 65536 = 0 := h
  have h2 : u16 s = s % 65536 := rfl
  have h3 := roundUp8_ge (u16 s)
  have h4 := roundUp8_le_add (u16 s)
  have h5 := roundUp8_ge s
  have h6 : s % 65536 ≤ s := Nat.mod_le _ _
  omega

theorem claimRoundedSize_builtin_zero {nm : List Char} {i : Nat}
    (hfb : findBuiltin nm = some i) :
    claimRoundedSize (nm, 0) = PageFeatureBuiltinFeatureSize i := by
  unfold claimRoundedSize
  rw [hfb]
  simp

theorem claimRoundedSize_builtin_pos {nm : List Char} {i : Nat} {s : Nat}
    (hfb : findBuiltin nm = some i) (hs : s ≠ 0) :
    claimRoundedSize (nm, s) = roundUp8 s := by
  unfold claimRoundedSize
  rw [hfb]
  simp [hs]

theorem claimRoundedSize_user {nm : List Char} {s : Nat}
    (hfb : findBuiltin nm = none) :
    claimRoundedSize (nm, s) = roundUp8 s := by
  unfold claimRoundedSize
  rw [hfb]

theorem addFeature_managed_eq (pfs : PageFeatureSetData) (nm : List Char)
    (s : Nat) :
    ((PageFeatureSetAddFeatureByName pfs nm s).2).bytes_managed =
      pfs.bytes_managed := by
  unfold PageFeatureSetAddFeatureByName appendFeat
  dsimp only
  repeat' split <;> try rfl

/-- Case analysis of the `bytes_used` update made by one
`PageFeatureSetAddFeatureByName` call: unchanged, advanced by a built-in
default size (zero rounded request on a built-in name), or advanced by the
narrowed rounded request. -/
theorem addFeature_used_cases (pfs : PageFeatureSetData) (nm : List Char)
    (s : Nat) :
    (PageFeatureSetAddFeatureByName pfs nm s).2.bytes_used = pfs.bytes_used ∨
    (∃ i, findBuiltin nm = some i ∧ u16 (roundUp8 (u16 s)) = 0 ∧
      (PageFeatureSetAddFeatureByName pfs nm s).2.bytes_used =
        u16 (pfs.bytes_used + PageFeatureBuiltinFeatureSize i)) ∨
    (PageFeatureSetAddFeatureByName pfs nm s).2.bytes_used =
      u16 (pfs.bytes_used + u16 (roundUp8 (u16 s))) := by
  unfold PageFeatureSetAddFeatureByName appendFeat
  dsimp only
  repeat' split
  all_goals first
    | exact Or.inl rfl
    | exact Or.inr (Or.inr rfl)
    | (refine Or.inr (Or.inl ⟨_, ?_, ?_, rfl⟩) <;> assumption)

theorem addFeature_used_le (pfs : PageFeatureSetData) (nm : List Char)
    (s : Nat) :
    ((PageFeatureSetAddFeatureByName pfs nm s).2).bytes_used ≤
      pfs.bytes_used + claimRoundedSize (nm, s) := by
  have e1 : u16 (roundUp8 (u16 s)) ≤ roundUp8 s :=
    le_trans (u16_le _) (roundUp8_mono (u16_le s))
  rcases addFeature_used_cases pfs nm s with h | ⟨i, hfb, h0, h⟩ | h
  · rw [h]
    exact Nat.le_add_right _ _
  · rw [h]
    by_cases hs : s = 0
    · subst hs
      rw [claimRoundedSize_builtin_zero hfb]
      exact u16_le _
    · rw [claimRoundedSize_builtin_pos hfb hs]
      have h1 := wrapzero_roundUp8_ge h0 hs
      have h2 := builtinDefault_le (findBuiltin_lt hfb)
      exact le_trans (u16_le _) (by omega)
  · rw [h]
    have hb : u16 (roundUp8 (u16 s)) ≤ claimRoundedSize (nm, s) := by
      rcases hfb : findBuiltin nm with _ | i
      · rw [claimRoundedSize_user hfb]
        exact e1
      · by_cases hs : s = 0
        · subst hs
          rw [claimRoundedSize_builtin_zero hfb]
          have hz : u16 (roundUp8 (u16 0)) = 0 := rfl
          rw [hz]
          exact Nat.zero_le _
        · rw [claimRoundedSize_builtin_pos hfb hs]
          exact e1
    exact le_trans (u16_le _) (by omega)

theorem capacity_invariant_aux (calls : List (List Char × Nat)) :
    ∀ pfs0 : PageFeatureSetData,
    pfs0.bytes_used + (calls.map claimRoundedSize).sum ≤ pfs0.bytes_managed →
    ∀ pfs ∈ addStates pfs0 calls, pfs.bytes_used ≤ pfs.bytes_managed := by
  induction calls with
  | nil =>
    intro pfs0 h pfs hm
    simp only [addStates, List.scanl_nil, List.mem_singleton] at hm
    subst hm
    simpa using h
  | cons c cs ih =>
    intro pfs0 h pfs hm
    obtain ⟨nm1, s1⟩ := c
    simp only [addStates, List.scanl_cons, List.singleton_append,
      List.mem_cons] at hm
    rcases hm with rfl | hm
    · simp only [List.map_cons, List.sum_cons] at h
      omega
    · apply ih _ _ pfs hm
      have h1 := addFeature_managed_eq pfs0 nm1 s1
      have h2 := addFeature_used_le pfs0 nm1 s1
      simp only [List.map_cons, List.sum_cons] at h
      omega

/-- C3 (confirmed): starting from a registry created with capacity
`C < 2^16`, any sequence of `PageFeatureSetAddFeatureByName` calls whose
costs (rounded requested sizes, with built-in defaults substituted for
zero-size built-in requests) sum to at most `C` keeps
`bytes_used ≤ bytes_managed` in every intermediate and final state. -/
theorem C3_capacity_invariant (nm : List Char) (C maxf : Nat)
    (calls : List (List Char × Nat)) (hC : C < 65536)
    (hsum : (calls.map claimRoundedSize).sum ≤ C) :
    ∀ pfs ∈ addStates (NewPageFeatureSet nm C maxf) calls,
      pfs.bytes_used ≤ pfs.bytes_managed := by
  apply capacity_invariant_aux
  show 0 + (calls.map claimRoundedSize).sum ≤ u16 C
  rw [u16_eq_of_lt hC]
  omega

/-- Concrete call sequence for the C3 witness: a built-in with explicit
size, a user feature with a size that needs rounding, and a built-in
adopting its default size. -/
def capacityCallsW : List (List Char × Nat) :=
  [("encryption_tags".toList, 32), ("audit".toList, 5),
   ("extended_checksums".toList, 0)]

/-- Witness for C3: the final state of the concrete run respects the
capacity bound. -/
theorem C3_capacity_invariant_witness :
    ((addStates (NewPageFeatureSet "t".toList 104 4) capacityCallsW).getD 3
        EmptyPageFeatureSet).bytes_used ≤
      ((addStates (NewPageFeatureSet "t".toList 104 4) capacityCallsW).getD 3
        EmptyPageFeatureSet).bytes_managed :=
  C3_capacity_invariant "t".toList 104 4 capacityCallsW (by decide) (by decide)
    _ (by decide)

/-! ### C5: lock and duplicate behaviour of add_feature -/

theorem addFeature_present_false (pfs : PageFeatureSetData) (nm : List Char)
    (s : Nat) (h : PageFeatureSetHasNamedFeature pfs nm = true) :
    (PageFeatureSetAddFeatureByName pfs nm s).1 = false := by
  unfold PageFeatureSetHasNamedFeature at h
  unfold PageFeatureSetAddFeatureByName
  dsimp only
  repeat' split
  all_goals first | rfl | contradiction

theorem addFeature_locked_builtin_false (pfs : PageFeatureSetData)
    (nm : List Char) (s : Nat) (hlock : pfs.locked = true) (i : Nat)
    (hfb : findBuiltin nm = some i) :
    (PageFeatureSetAddFeatureByName pfs nm s).1 = false := by
  unfold PageFeatureSetAddFeatureByName
  dsimp only
  rw [hfb]
  repeat' split
  all_goals first | rfl | contradiction

theorem addFeature_fresh_user_true (pfs : PageFeatureSetData)
    (nm : List Char) (s : Nat)
    (hnp : PageFeatureSetHasNamedFeature pfs nm = false)
    (hfb : findBuiltin nm = none)
    (hcap : pfs.feats.length < pfs.feat_capacity) (hpos : 0 < s)
    (hle : pfs.bytes_used ≤ pfs.bytes_managed)
    (hman : pfs.bytes_managed < 65536)
    (hroom : roundUp8 s ≤ pfs.bytes_managed - pfs.bytes_used) :
    (PageFeatureSetAddFeatureByName pfs nm s).1 = true := by
  have hgs := roundUp8_ge s
  have h1 : s < 65536 := by omega
  have h2 : roundUp8 s < 65536 := by omega
  have hs1 : u16 (roundUp8 (u16 s)) = roundUp8 s := by
    rw [u16_eq_of_lt h1]
    exact u16_eq_of_lt h2
  have hany : pfs.feats.any (fun d => d.name = nm) = false := hnp
  unfold PageFeatureSetAddFeatureByName
  dsimp only
  rw [hs1, hfb]
  rw [if_neg (by omega : ¬ pfs.feats.length ≥ pfs.feat_capacity)]
  rw [if_neg (by push_cast; omega :
    ¬ ((roundUp8 s : Int) > (pfs.bytes_managed : Int) - (pfs.bytes_used : Int)))]
  rw [if_neg (by simp [hany])]
  rw [if_neg (by omega : ¬ roundUp8 s = 0)]

theorem readFeatLoop_locked (fuel : Nat) :
    ∀ cs pfs count size ts tc pfsR,
      readFeatLoop fuel cs pfs count size ts tc = some pfsR →
      pfsR.locked = true := by
  induction fuel with
  | zero =>
    intro cs pfs count size ts tc pfsR h
    simp [readFeatLoop] at h
  | succ n ih =>
    intro cs pfs count size ts tc pfsR h
    unfold readFeatLoop at h
    repeat' split at h
    all_goals first
      | (have h2 := Option.some.inj h; rw [← h2])
      | simp at h
      | exact ih _ _ _ _ _ _ _ h

theorem ReadPageFeatureSet_locked (maxReserved : Nat) (fname content : List Char)
    (pfsR : PageFeatureSetData)
    (h : ReadPageFeatureSet maxReserved fname content = some pfsR) :
    pfsR.locked = true := by
  unfold ReadPageFeatureSet at h
  repeat' split at h
  all_goals first
    | simp at h
    | exact readFeatLoop_locked _ _ _ _ _ _ _ _ h

theorem WritePageFeatureSet_locked (pfs : PageFeatureSetData)
    (content : List Char) (pfsW : PageFeatureSetData)
    (h : WritePageFeatureSet pfs = some (content, pfsW)) :
    pfsW.locked = true := by
  unfold WritePageFeatureSet at h
  dsimp only at h
  repeat' split at h
  all_goals first
    | (have h2 := (Prod.mk.injEq _ _ _ _).mp (Option.some.inj h)
       rw [← h2.2])
    | simp at h

/-- C5 (corrected): (1) re-adding a present feature name always fails,
whatever the lock state; (2, 3) a successful `WritePageFeatureSet` or
`ReadPageFeatureSet` yields a locked registry; (4) on a locked registry,
adding an absent built-in name fails; (5) adding a new non-built-in name
succeeds when descriptor capacity and rounded byte capacity remain AND the
requested size is positive — the claim omits the last condition, but a
zero-size non-built-in request is rejected regardless of capacity. -/
theorem C5_lock_duplicate_behaviour (pfs : PageFeatureSetData)
    (nm : List Char) (s : Nat) :
    (PageFeatureSetHasNamedFeature pfs nm = true →
      (PageFeatureSetAddFeatureByName pfs nm s).1 = false) ∧
    (∀ content pfsW, WritePageFeatureSet pfs = some (content, pfsW) →
      pfsW.locked = true) ∧
    (∀ maxReserved fname content pfsR,
      ReadPageFeatureSet maxReserved fname content = some pfsR →
      pfsR.locked = true) ∧
    (pfs.locked = true → ∀ i, findBuiltin nm = some i →
      (PageFeatureSetAddFeatureByName pfs nm s).1 = false) ∧
    (PageFeatureSetHasNamedFeature pfs nm = false → findBuiltin nm = none →
      pfs.feats.length < pfs.feat_capacity → 0 < s →
      pfs.bytes_used ≤ pfs.bytes_managed → pfs.bytes_managed < 65536 →
      roundUp8 s ≤ pfs.bytes_managed - pfs.bytes_used →
      (PageFeatureSetAddFeatureByName pfs nm s).1 = true) :=
  ⟨fun h => addFeature_present_false pfs nm s h,
   fun content pfsW h => WritePageFeatureSet_locked pfs content pfsW h,
   fun mr fn c pfsR h => ReadPageFeatureSet_locked mr fn c pfsR h,
   fun hl i hfb => addFeature_locked_builtin_false pfs nm s hl i hfb,
   fun h1 h2 h3 h4 h5 h6 h7 =>
     addFeature_fresh_user_true pfs nm s h1 h2 h3 h4 h5 h6 h7⟩

/-- A locked variant of the test registry. -/
def pfsLockedW : PageFeatureSetData :=
  { pfsWithAudit with locked := true }

/-- Witness for C5: the duplicate, locked-built-in and fresh-user cases
at concrete registries. -/
theorem C5_lock_duplicate_behaviour_witness :
    (PageFeatureSetAddFeatureByName pfsWithAudit "audit".toList 8).1 = false ∧
    (PageFeatureSetAddFeatureByName pfsLockedW
      "extended_checksums".toList 0).1 = false ∧
    (PageFeatureSetAddFeatureByName pfsWithAudit "fresh".toList 5).1 = true :=
  ⟨(C5_lock_duplicate_behaviour pfsWithAudit "audit".toList 8).1 (by decide),
   (C5_lock_duplicate_behaviour pfsLockedW "extended_checksums".toList 0).2.2.2.1
     (by decide) 1 (by decide),
   (C5_lock_duplicate_behaviour pfsWithAudit "fresh".toList 5).2.2.2.2
     (by decide) (by decide) (by decide) (by decide) (by decide) (by decide)
     (by decide)⟩

/-- Counterexample to C5 as stated: a brand-new non-built-in name with
requested size 0 is rejected although both descriptor capacity and
rounded byte capacity remain. -/
theorem C5_counterexample :
    (PageFeatureSetAddFeatureByName (NewPageFeatureSet "x".toList 16 2)
      "user".toList 0).1 = false ∧
    (NewPageFeatureSet "x".toList 16 2).feats.length <
      (NewPageFeatureSet "x".toList 16 2).feat_capacity ∧
    findBuiltin "user".toList = none ∧
    PageFeatureSetHasNamedFeature (NewPageFeatureSet "x".toList 16 2)
      "user".toList = false ∧
    roundUp8 0 ≤ (NewPageFeatureSet "x".toList 16 2).bytes_managed -
      (NewPageFeatureSet "x".toList 16 2).bytes_used := by
  decide

/-! ### C6: the layout optimizer -/

/-- The offset-independent content of a descriptor. -/
def descKey (d : AllocatedPageFeatureDesc) : List Char × Nat × Bool × Nat :=
  (d.name, d.size, d.isbuiltin, d.builtin)

/-- Claim-side definition: the running sums of a size list starting at a
given value ("offset = running sum of the preceding sizes"). -/
def runningSums (start : Nat) : List Nat → List Nat
  | [] => []
  | s :: ss => start :: runningSums (start + s) ss

theorem assignOffsets_map_key (off : Nat) (l : List AllocatedPageFeatureDesc) :
    (assignOffsets off l).map descKey = l.map descKey := by
  induction l generalizing off with
  | nil => rfl
  | cons d ds ih => simp [assignOffsets, descKey, ih]

theorem assignOffsets_map_size (off : Nat) (l : List AllocatedPageFeatureDesc) :
    (assignOffsets off l).map (fun d => d.size) = l.map (fun d => d.size) := by
  induction l generalizing off with
  | nil => rfl
  | cons d ds ih => simp [assignOffsets, ih]

theorem assignOffsets_offsets (l : List AllocatedPageFeatureDesc) :
    ∀ off, off + (l.map (fun d => d.size)).sum < 65536 →
    (assignOffsets off l).map (fun d => d.offset) =
      runningSums off (l.map (fun d => d.size)) := by
  induction l with
  | nil => intro off _; rfl
  | cons d ds ih =>
    intro off h
    simp only [List.map_cons, List.sum_cons] at h
    simp only [assignOffsets, List.map_cons, runningSums]
    rw [u16_eq_of_lt (by omega : off < 65536)]
    rw [ih (off + d.size) (by omega)]

theorem assignOffsets_filter_user (off : Nat)
    (l : List AllocatedPageFeatureDesc) :
    ((assignOffsets off l).filter (fun d => !d.isbuiltin)).map descKey =
      (l.filter (fun d => !d.isbuiltin)).map descKey := by
  induction l generalizing off with
  | nil => rfl
  | cons d ds ih =>
    simp only [assignOffsets, List.filter_cons]
    by_cases hb : d.isbuiltin
    · simp [hb, ih]
    · simp only [Bool.not_eq_true] at hb
      simp [hb, ih, descKey]

theorem bitmap_test_iff (n i : Nat) :
    (n &&& (1 <<< i) ≠ 0) ↔ n.testBit i = true := by
  rw [Nat.shiftLeft_eq, one_mul, Nat.and_two_pow]
  cases h : n.testBit i <;> simp [h]

/-- The built-in collection pass of `OptimizePageFeatureSet` (pagefeat.c
lines 315-333) as a standalone function. -/
def optB (pfs : PageFeatureSetData) : List AllocatedPageFeatureDesc :=
  (List.range PF_MAX_FEATURE).filterMap
    (fun i =>
      if pfs.builtin_bitmap &&& (1 <<< i) ≠ 0 then
        pfs.feats.find? (fun d => d.isbuiltin && d.builtin = i)
      else none)

theorem OptimizePageFeatureSet_eq (pfs : PageFeatureSetData) :
    OptimizePageFeatureSet pfs =
      if pfs.locked = true ∨ pfs.builtin_bitmap = 0 ∨ pfs.feats.length ≤ 1
      then pfs
      else { pfs with
              feats := assignOffsets 0
                (optB pfs ++ pfs.feats.filter (fun d => !d.isbuiltin)) } :=
  rfl

theorem optB_arm_some {pfs : PageFeatureSetData} {i : Nat}
    {d : AllocatedPageFeatureDesc}
    (h : (if pfs.builtin_bitmap &&& (1 <<< i) ≠ 0 then
        pfs.feats.find? (fun d => d.isbuiltin && d.builtin = i)
      else none) = some d) :
    d ∈ pfs.feats ∧ d.isbuiltin = true ∧ d.builtin = i := by
  split at h
  · have hp := List.find?_some h
    simp only [Bool.and_eq_true, decide_eq_true_eq] at hp
    exact ⟨List.mem_of_find?_eq_some h, hp.1, hp.2⟩
  · simp at h

theorem optB_subset {pfs : PageFeatureSetData} :
    ∀ d ∈ optB pfs, d ∈ pfs.feats ∧ d.isbuiltin = true := by
  intro d hd
  rw [optB, List.mem_filterMap] at hd
  obtain ⟨i, _, hi⟩ := hd
  exact ⟨(optB_arm_some hi).1, (optB_arm_some hi).2.1⟩

theorem mem_optB {pfs : PageFeatureSetData}
    (hb : ∀ d ∈ pfs.feats, d.isbuiltin = true →
      d.builtin < PF_MAX_FEATURE ∧ pfs.builtin_bitmap.testBit d.builtin = true)
    (hinj : ∀ d ∈ pfs.feats, ∀ e ∈ pfs.feats, d.isbuiltin = true →
      e.isbuiltin = true → d.builtin = e.builtin → d = e) :
    ∀ d ∈ pfs.feats, d.isbuiltin = true → d ∈ optB pfs := by
  intro d hd hbi
  obtain ⟨hlt, hbit⟩ := hb d hd hbi
  rw [optB, List.mem_filterMap]
  refine ⟨d.builtin, List.mem_range.mpr hlt, ?_⟩
  rw [if_pos ((bitmap_test_iff _ _).mpr hbit)]
  have hex : (pfs.feats.find? (fun e => e.isbuiltin && e.builtin = d.builtin)).isSome := by
    rw [List.find?_isSome]
    exact ⟨d, hd, by simp [hbi]⟩
  obtain ⟨e, he⟩ := Option.isSome_iff_exists.mp hex
  have hp := List.find?_some he
  simp only [Bool.and_eq_true, decide_eq_true_eq] at hp
  have hme := List.mem_of_find?_eq_some he
  have hde : e = d := hinj e hme d hd hp.1 hbi hp.2
  rw [he, hde]

theorem optB_nodup (pfs : PageFeatureSetData) : (optB pfs).Nodup := by
  apply List.Nodup.filterMap
  · intro i j d hi hj
    rw [Option.mem_def] at hi hj
    have h1 := (optB_arm_some hi).2.2
    have h2 := (optB_arm_some hj).2.2
    omega
  · exact List.nodup_range _

theorem optB_perm {pfs : PageFeatureSetData}
    (hnames : (pfs.feats.map (fun d => d.name)).Nodup)
    (hb : ∀ d ∈ pfs.feats, d.isbuiltin = true →
      d.builtin < PF_MAX_FEATURE ∧ pfs.builtin_bitmap.testBit d.builtin = true)
    (hinj : ∀ d ∈ pfs.feats, ∀ e ∈ pfs.feats, d.isbuiltin = true →
      e.isbuiltin = true → d.builtin = e.builtin → d = e) :
    (optB pfs).Perm (pfs.feats.filter (fun d => d.isbuiltin)) := by
  have hfeats : pfs.feats.Nodup := List.Nodup.of_map _ hnames
  apply (List.perm_ext_iff_of_nodup (optB_nodup pfs)
    (List.Nodup.filter _ hfeats)).mpr
  intro d
  rw [List.mem_filter]
  constructor
  · intro hd
    exact optB_subset d hd
  · intro ⟨hd, hbi⟩
    exact mem_optB hb hinj d hd hbi

theorem optB_sorted (pfs : PageFeatureSetData) :
    ((optB pfs).map (fun d => d.builtin)).Pairwise (· < ·) := by
  have hr : List.range PF_MAX_FEATURE = [0, 1] := rfl
  rw [optB, hr]
  rcases h0 : (if pfs.builtin_bitmap &&& (1 <<< 0) ≠ 0 then
      pfs.feats.find? (fun d => d.isbuiltin && d.builtin = 0)
    else none) with _ | d0 <;>
  rcases h1 : (if pfs.builtin_bitmap &&& (1 <<< 1) ≠ 0 then
      pfs.feats.find? (fun d => d.isbuiltin && d.builtin = 1)
    else none) with _ | d1 <;>
  simp only [List.filterMap_cons, h0, h1, List.filterMap_nil] <;>
  simp only [List.map_cons, List.map_nil, List.pairwise_cons,
    List.Pairwise.nil, List.not_mem_nil, List.mem_cons, List.mem_singleton,
    false_implies, implies_true, and_true, true_and]
  · intro x hx
    rcases hx with rfl | hx
    · rw [(optB_arm_some h0).2.2, (optB_arm_some h1).2.2]
      omega
    · exact hx.elim

/-- C6 (confirmed): for a registry whose descriptors are consistent (names
distinct; every descriptor marked built-in has a valid, bitmap-set,
unduplicated built-in index; total size within `uint16`),
`OptimizePageFeatureSet` is the identity when the registry is locked, has
no built-in bit set, or holds at most one descriptor; otherwise it keeps
all scalar fields, permutes the descriptors' offset-independent content
(so `feat_count`, `bytes_used` and every (name, size) pair survive),
places some reordering of the built-in descriptors, ascending in built-in
index, before the non-built-in descriptors (kept in original order), and
reassigns each offset as the running sum of the preceding sizes starting
at 0. -/
theorem C6_optimizer (pfs : PageFeatureSetData)
    (hnames : (pfs.feats.map (fun d => d.name)).Nodup)
    (hb : ∀ d ∈ pfs.feats, d.isbuiltin = true →
      d.builtin < PF_MAX_FEATURE ∧ pfs.builtin_bitmap.testBit d.builtin = true)
    (hinj : ∀ d ∈ pfs.feats, ∀ e ∈ pfs.feats, d.isbuiltin = true →
      e.isbuiltin = true → d.builtin = e.builtin → d = e)
    (hsum : (pfs.feats.map (fun d => d.size)).sum < 65536) :
    (pfs.locked = true ∨ pfs.builtin_bitmap = 0 ∨ pfs.feats.length ≤ 1 →
      OptimizePageFeatureSet pfs = pfs) ∧
    ((OptimizePageFeatureSet pfs).builtin_bitmap = pfs.builtin_bitmap ∧
      (OptimizePageFeatureSet pfs).bytes_managed = pfs.bytes_managed ∧
      (OptimizePageFeatureSet pfs).bytes_used = pfs.bytes_used ∧
      (OptimizePageFeatureSet pfs).locked = pfs.locked) ∧
    ((OptimizePageFeatureSet pfs).feats.map descKey).Perm
      (pfs.feats.map descKey) ∧
    (OptimizePageFeatureSet pfs).feat_count = pfs.feat_count ∧
    (¬ (pfs.locked = true ∨ pfs.builtin_bitmap = 0 ∨ pfs.feats.length ≤ 1) →
      ∃ B, (OptimizePageFeatureSet pfs).feats =
          assignOffsets 0 (B ++ pfs.feats.filter (fun d => !d.isbuiltin)) ∧
        B.Perm (pfs.feats.filter (fun d => d.isbuiltin)) ∧
        (B.map (fun d => d.builtin)).Pairwise (· < ·) ∧
        ((OptimizePageFeatureSet pfs).feats.filter
          (fun d => !d.isbuiltin)).map descKey =
          (pfs.feats.filter (fun d => !d.isbuiltin)).map descKey ∧
        (OptimizePageFeatureSet pfs).feats.map (fun d => d.offset) =
          runningSums 0
            ((OptimizePageFeatureSet pfs).feats.map (fun d => d.size))) := by
  by_cases hC : pfs.locked = true ∨ pfs.builtin_bitmap = 0 ∨
      pfs.feats.length ≤ 1
  · rw [OptimizePageFeatureSet_eq, if_pos hC]
    exact ⟨fun _ => rfl, ⟨rfl, rfl, rfl, rfl⟩, List.Perm.refl _, rfl,
      fun h => absurd hC h⟩
  · rw [OptimizePageFeatureSet_eq, if_neg hC]
    have hperm := optB_perm hnames hb hinj
    have hall : (optB pfs ++ pfs.feats.filter (fun d => !d.isbuiltin)).Perm
        pfs.feats :=
      (hperm.append_right _).trans (List.filter_append_perm _ _)
    have hkeyperm : ((assignOffsets 0 (optB pfs ++
        pfs.feats.filter (fun d => !d.isbuiltin))).map descKey).Perm
        (pfs.feats.map descKey) := by
      rw [assignOffsets_map_key]
      exact hall.map descKey
    refine ⟨fun h => absurd h hC, ⟨rfl, rfl, rfl, rfl⟩, hkeyperm, ?_, ?_⟩
    · show (assignOffsets 0 _).length = pfs.feats.length
      have h1 := hkeyperm.length_eq
      simpa using h1
    · intro _
      refine ⟨optB pfs, rfl, hperm, optB_sorted pfs, ?_, ?_⟩
      · rw [assignOffsets_filter_user]
        have h1 : (optB pfs).filter (fun d => !d.isbuiltin) = [] := by
          rw [List.filter_eq_nil_iff]
          intro d hd
          simp [(optB_subset d hd).2]
        have h2 : (pfs.feats.filter (fun d => !d.isbuiltin)).filter
            (fun d => !d.isbuiltin) = pfs.feats.filter (fun d => !d.isbuiltin) :=
          List.filter_eq_self.mpr (fun a ha => (List.mem_filter.mp ha).2)
        rw [List.filter_append, h1, h2, List.nil_append]
      · have hsum2 : 0 + ((optB pfs ++ pfs.feats.filter
            (fun d => !d.isbuiltin)).map (fun d => d.size)).sum < 65536 := by
          rw [(hall.map (fun d => d.size)).sum_eq]
          omega
        rw [assignOffsets_map_size, assignOffsets_offsets _ _ hsum2]

/-- A three-feature unlocked registry (two built-ins, one user feature) in
pre-optimization order, used as the C6 fixture. -/
def optPfsW : PageFeatureSetData :=
  { name := "t".toList
    builtin_bitmap := 3
    bytes_managed := 104
    bytes_used := 104
    feat_capacity := 4
    locked := false
    feats := [⟨"encryption_tags".toList, 0, 32, true, 0⟩,
              ⟨"audit".toList, 32, 8, false, 0⟩,
              ⟨"extended_checksums".toList, 40, 64, true, 1⟩] }

/-- Witness for C6: the reorder pass permutes the concrete registry's
descriptor content, and a locked copy is left untouched. -/
theorem C6_optimizer_witness :
    ((OptimizePageFeatureSet optPfsW).feats.map descKey).Perm
      (optPfsW.feats.map descKey) ∧
    OptimizePageFeatureSet { optPfsW with locked := true } =
      { optPfsW with locked := true } :=
  ⟨(C6_optimizer optPfsW (by decide) (by decide) (by decide) (by decide)).2.2.1,
   (C6_optimizer { optPfsW with locked := true } (by decide) (by decide)
     (by decide) (by decide)).1 (Or.inl rfl)⟩

/-! ### Byte-buffer lemmas for the crypto engine -/

theorem writeBytes_length {p bs : List Nat} {off : Nat}
    (h : off + bs.length ≤ p.length) :
    (writeBytes p off bs).length = p.length := by
  unfold writeBytes
  simp only [List.length_append, List.length_take, List.length_drop]
  omega

theorem readBytes_length {p : List Nat} {off len : Nat}
    (h : off + len ≤ p.length) :
    (readBytes p off len).length = len := by
  unfold readBytes
  simp only [List.length_take, List.length_drop]
  omega

theorem readBytes_writeBytes_self {p bs : List Nat} {off : Nat}
    (h : off + bs.length ≤ p.length) :
    readBytes (writeBytes p off bs) off bs.length = bs := by
  unfold readBytes writeBytes
  rw [List.append_assoc]
  rw [List.drop_left' (List.length_take_of_le (by omega : off ≤ p.length))]
  rw [List.take_left' rfl]

theorem readBytes_writeBytes_left {p bs : List Nat} {off off2 len2 : Nat}
    (h : off2 + len2 ≤ off) (hoff : off ≤ p.length) :
    readBytes (writeBytes p off bs) off2 len2 = readBytes p off2 len2 := by
  unfold readBytes writeBytes
  rw [List.append_assoc]
  rw [List.drop_append_eq_append_drop]
  rw [List.length_take_of_le hoff]
  rw [Nat.sub_eq_zero_of_le (by omega : off2 ≤ off), List.drop_zero]
  rw [List.take_append_eq_append_take]
  rw [List.drop_take]
  have h2 : len2 - (List.take (off - off2) (List.drop off2 p)).length = 0 := by
    simp only [List.length_take, List.length_drop]
    omega
  rw [h2, List.take_zero, List.append_nil]
  rw [List.take_take, Nat.min_eq_left (by omega : len2 ≤ off - off2)]

theorem readBytes_writeBytes_right {p bs : List Nat} {off off2 len2 : Nat}
    (h : off + bs.length ≤ off2) (hoff : off ≤ p.length) :
    readBytes (writeBytes p off bs) off2 len2 = readBytes p off2 len2 := by
  unfold readBytes writeBytes
  rw [List.drop_append_eq_append_drop]
  have hA : (List.take off p ++ bs).length = off + bs.length := by
    simp only [List.length_append, List.length_take_of_le hoff]
  rw [List.drop_eq_nil_of_le (by omega : (List.take off p ++ bs).length ≤ off2)]
  rw [List.nil_append, hA, List.drop_drop]
  rw [show off + bs.length + (off2 - (off + bs.length)) = off2 from by omega]

theorem ivBytes_length (c : Nat) : (ivBytes c).length = 16 := by
  unfold ivBytes
  simp

/-- Core behaviour of `DecryptPage` applied to a freshly encrypted page:
with matching file number and block number (as `uint32` values) it
succeeds and restores the plaintext body; with either identity field
changed, the rebuilt AAD differs and the AEAD contract forces an
authentication failure.  The permanence flags play no role. -/
theorem DecryptPage_EncryptPage (A : PgCipher) (cfg : BufEncConfig)
    (hv : cfg.valid) (htag : A.taglen = cfg.tagSizeI.toNat)
    (fetch : Nat → Nat) (nfetch ctr : Nat) (page : List Nat)
    (hlen : page.length = cfg.blcksz) (perm perm2 : Bool)
    (blkno fileno blkno2 fileno2 : Nat) :
    (blkno2 % 2 ^ 32 = blkno % 2 ^ 32 → fileno2 % 2 ^ 32 = fileno % 2 ^ 32 →
      ∃ pageD,
        DecryptPage A cfg
          (EncryptPage A cfg fetch nfetch ctr page perm blkno fileno).1
          perm2 blkno2 fileno2 = some pageD ∧
        readBytes pageD cfg.pageEncryptOffset cfg.pageSizeI.toNat =
          readBytes page cfg.pageEncryptOffset cfg.pageSizeI.toNat ∧
        pageD.length = cfg.blcksz) ∧
    (¬ (blkno2 % 2 ^ 32 = blkno % 2 ^ 32 ∧ fileno2 % 2 ^ 32 = fileno % 2 ^ 32) →
      DecryptPage A cfg
        (EncryptPage A cfg fetch nfetch ctr page perm blkno fileno).1
        perm2 blkno2 fileno2 = none) := by
  obtain ⟨h1, h2, h3⟩ := hv
  have htpos : 0 < cfg.tagSizeI := by
    unfold BufEncConfig.tagSizeI
    omega
  have hTS : cfg.tagSizeI.toNat = cfg.encryption_size - 16 := by
    unfold BufEncConfig.tagSizeI
    omega
  have hPS : cfg.pageSizeI.toNat =
      cfg.encryption_offset - cfg.pageEncryptOffset := by
    unfold BufEncConfig.pageSizeI
    omega
  set ivc := (PlaceNewIV fetch nfetch ctr).1 with hivc
  set iv := ivBytes ivc with hiv
  set pg1 := writeBytes page cfg.encryption_offset iv with hpg1
  set aadE := setup_additional_authenticated_data cfg pg1 blkno perm fileno
    with haadE
  set pt := readBytes pg1 cfg.pageEncryptOffset cfg.pageSizeI.toNat with hpt
  set ct := (A.enc pt iv aadE).1 with hct
  set tg := (A.enc pt iv aadE).2 with htg
  set pg2 := writeBytes pg1 cfg.pageEncryptOffset ct with hpg2
  set pg3 := writeBytes pg2 (cfg.encryption_offset + 16) tg with hpg3
  have hivlen : iv.length = 16 := ivBytes_length _
  have hl1 : pg1.length = cfg.blcksz := by
    rw [hpg1, writeBytes_length (by rw [hivlen, hlen]; omega), hlen]
  have hptlen : pt.length = cfg.pageSizeI.toNat := by
    rw [hpt]
    exact readBytes_length (by omega)
  have hctlen : ct.length = cfg.pageSizeI.toNat := by
    rw [hct, A.enc_length, hptlen]
  have htglen : tg.length = cfg.tagSizeI.toNat := by
    rw [htg, A.enc_taglen, htag]
  have hl2 : pg2.length = cfg.blcksz := by
    rw [hpg2, writeBytes_length (by rw [hctlen]; omega), hl1]
  have hl3 : pg3.length = cfg.blcksz := by
    rw [hpg3, writeBytes_length (by rw [htglen]; omega), hl2]
  have hE : (EncryptPage A cfg fetch nfetch ctr page perm blkno fileno).1 =
      pg3 := by
    unfold EncryptPage
    dsimp only
    rw [if_pos htpos]
  have hivR : readBytes pg3 cfg.encryption_offset 16 = iv := by
    rw [hpg3, readBytes_writeBytes_left (by omega) (by omega)]
    rw [hpg2, readBytes_writeBytes_right (by rw [hctlen]; omega) (by omega)]
    rw [hpg1, ← hivlen]
    exact readBytes_writeBytes_self (by rw [hivlen, hlen]; omega)
  have htgR : readBytes pg3 (cfg.encryption_offset + 16)
      cfg.tagSizeI.toNat = tg := by
    rw [hpg3, ← htglen]
    exact readBytes_writeBytes_self (by rw [htglen, hl2]; omega)
  have hhdr : readBytes pg3 0 cfg.pageEncryptOffset =
      readBytes page 0 cfg.pageEncryptOffset := by
    rw [hpg3, readBytes_writeBytes_left (by omega) (by omega)]
    rw [hpg2, readBytes_writeBytes_left (by omega) (by omega)]
    rw [hpg1, readBytes_writeBytes_left (by omega) (by omega)]
  have hctR : readBytes pg3 cfg.pageEncryptOffset cfg.pageSizeI.toNat = ct := by
    rw [hpg3, readBytes_writeBytes_left (by omega) (by omega)]
    rw [hpg2, ← hctlen]
    exact readBytes_writeBytes_self (by rw [hctlen, hl1]; omega)
  have haadE2 : aadE = readBytes page 0 cfg.pageEncryptOffset ++
      [fileno % 2 ^ 32, blkno % 2 ^ 32] := by
    rw [haadE]
    unfold setup_additional_authenticated_data
    rw [hpg1, readBytes_writeBytes_left (by omega) (by omega)]
  have hptR : pt = readBytes page cfg.pageEncryptOffset cfg.pageSizeI.toNat := by
    rw [hpt, hpg1, readBytes_writeBytes_left (by omega) (by omega)]
  rw [hE]
  constructor
  · intro hbe hfe
    have hdec : DecryptPage A cfg pg3 perm2 blkno2 fileno2 =
        some (writeBytes pg3 cfg.pageEncryptOffset pt) := by
      unfold DecryptPage
      dsimp only
      rw [if_pos htpos]
      rw [hivR, htgR, hctR]
      unfold setup_additional_authenticated_data
      rw [hhdr, hbe, hfe, ← haadE2]
      rw [hct, htg, A.dec_of_enc]
    refine ⟨writeBytes pg3 cfg.pageEncryptOffset pt, hdec, ?_, ?_⟩
    · have hs3 : cfg.pageEncryptOffset + pt.length ≤ pg3.length := by
        rw [hptlen, hl3]
        omega
      rw [← hptR, ← hptlen]
      exact readBytes_writeBytes_self hs3
    · have hs4 : cfg.pageEncryptOffset + pt.length ≤ pg3.length := by
        rw [hptlen, hl3]
        omega
      rw [writeBytes_length hs4, hl3]
  · intro hne
    unfold DecryptPage
    dsimp only
    rw [if_pos htpos]
    rw [hivR, htgR, hctR]
    unfold setup_additional_authenticated_data
    rw [hhdr]
    have hanek : readBytes page 0 cfg.pageEncryptOffset ++
        [fileno2 % 2 ^ 32, blkno2 % 2 ^ 32] ≠ aadE := by
      rw [haadE2]
      intro heq
      have h4 := List.append_cancel_left heq
      simp only [List.cons.injEq, and_true] at h4
      exact hne ⟨h4.2, h4.1⟩
    rw [hct, htg, A.dec_bad_aad pt iv aadE _ hanek]

/-! ### C2: AEAD round trip and authentication of storage identity -/

/-- C2 (confirmed): on a valid engine whose AEAD tag length matches the
feature slot, decrypting an encrypted page with the same permanence flag,
block number and file number succeeds and restores the plaintext body
exactly, while changing the block number or the file number (both
`uint32`) makes decryption fail with an authentication error. -/
theorem C2_aead_roundtrip (A : PgCipher) (cfg : BufEncConfig)
    (hv : cfg.valid) (htag : A.taglen = cfg.tagSizeI.toNat)
    (fetch : Nat → Nat) (nfetch ctr : Nat) (page : List Nat)
    (hlen : page.length = cfg.blcksz) (perm : Bool) (blkno fileno : Nat)
    (hb : blkno < 2 ^ 32) (hf : fileno < 2 ^ 32) :
    (∃ pageD,
      DecryptPage A cfg
        (EncryptPage A cfg fetch nfetch ctr page perm blkno fileno).1
        perm blkno fileno = some pageD ∧
      readBytes pageD cfg.pageEncryptOffset cfg.pageSizeI.toNat =
        readBytes page cfg.pageEncryptOffset cfg.pageSizeI.toNat) ∧
    (∀ blkno2, blkno2 < 2 ^ 32 → blkno2 ≠ blkno →
      DecryptPage A cfg
        (EncryptPage A cfg fetch nfetch ctr page perm blkno fileno).1
        perm blkno2 fileno = none) ∧
    (∀ fileno2, fileno2 < 2 ^ 32 → fileno2 ≠ fileno →
      DecryptPage A cfg
        (EncryptPage A cfg fetch nfetch ctr page perm blkno fileno).1
        perm blkno fileno2 = none) := by
  refine ⟨?_, ?_, ?_⟩
  · obtain ⟨pd, hd, hbody, _⟩ :=
      (DecryptPage_EncryptPage A cfg hv htag fetch nfetch ctr page hlen
        perm perm blkno fileno blkno fileno).1 rfl rfl
    exact ⟨pd, hd, hbody⟩
  · intro blkno2 hb2 hne
    refine (DecryptPage_EncryptPage A cfg hv htag fetch nfetch ctr page hlen
      perm perm blkno fileno blkno2 fileno).2 ?_
    intro ⟨hbe, _⟩
    rw [Nat.mod_eq_of_lt hb2, Nat.mod_eq_of_lt hb] at hbe
    exact hne hbe
  · intro fileno2 hf2 hne
    refine (DecryptPage_EncryptPage A cfg hv htag fetch nfetch ctr page hlen
      perm perm blkno fileno blkno fileno2).2 ?_
    intro ⟨_, hfe⟩
    rw [Nat.mod_eq_of_lt hf2, Nat.mod_eq_of_lt hf] at hfe
    exact hne hfe

/-! ### C10: the permanence flag is not authenticated -/

/-- C10 (confirmed): `relation_is_permanent` does not influence
`EncryptPage` or `DecryptPage` at all (the AAD built by
`setup_additional_authenticated_data` never includes it), and a page
encrypted as permanent decrypts successfully when presented as
non-permanent. -/
theorem C10_permanence_flag_irrelevant (A : PgCipher) (cfg : BufEncConfig)
    (fetch : Nat → Nat) (nfetch ctr : Nat) (page : List Nat)
    (blkno fileno : Nat) :
    EncryptPage A cfg fetch nfetch ctr page true blkno fileno =
      EncryptPage A cfg fetch nfetch ctr page false blkno fileno ∧
    DecryptPage A cfg page true blkno fileno =
      DecryptPage A cfg page false blkno fileno ∧
    (cfg.valid → A.taglen = cfg.tagSizeI.toNat → page.length = cfg.blcksz →
      ∃ pageD,
        DecryptPage A cfg
          (EncryptPage A cfg fetch nfetch ctr page true blkno fileno).1
          false blkno fileno = some pageD ∧
        readBytes pageD cfg.pageEncryptOffset cfg.pageSizeI.toNat =
          readBytes page cfg.pageEncryptOffset cfg.pageSizeI.toNat) := by
  refine ⟨rfl, rfl, ?_⟩
  intro hv htag hlen
  obtain ⟨pd, hd, hbody, _⟩ :=
    (DecryptPage_EncryptPage A cfg hv htag fetch nfetch ctr page hlen
      true false blkno fileno blkno fileno).1 rfl rfl
  exact ⟨pd, hd, hbody⟩

/-! ### A concrete AEAD instance for the witnesses -/

/-- An injective encoding of byte lists into `Nat` (a fold of Cantor
pairing), used by the toy AEAD below. -/
def encodeL (l : List Nat) : Nat :=
  l.foldr (fun x acc => Nat.pair x acc + 1) 0

theorem encodeL_inj : ∀ {a b : List Nat}, encodeL a = encodeL b → a = b := by
  intro a
  induction a with
  | nil =>
    intro b h
    cases b with
    | nil => rfl
    | cons y ys => simp [encodeL] at h
  | cons x xs ih =>
    intro b h
    cases b with
    | nil => simp [encodeL] at h
    | cons y ys =>
      simp only [encodeL, List.foldr_cons] at h
      have h2 : Nat.pair x (encodeL xs) = Nat.pair y (encodeL ys) := by
        unfold encodeL
        omega
      have h3 := congrArg Nat.unpair h2
      rw [Nat.unpair_pair, Nat.unpair_pair] at h3
      have hx := congrArg Prod.fst h3
      have hr := congrArg Prod.snd h3
      simp only at hx hr
      rw [hx, ih hr]

/-- The toy tag: a single number determined by ciphertext, IV and AAD. -/
def toyTag (ct iv aad : List Nat) : Nat :=
  Nat.pair (encodeL ct) (Nat.pair (encodeL iv) (encodeL aad))

theorem toyTag_aad_inj {c i a a2 : List Nat}
    (h : toyTag c i a = toyTag c i a2) : a = a2 := by
  unfold toyTag at h
  have h2 := congrArg Nat.unpair h
  rw [Nat.unpair_pair, Nat.unpair_pair] at h2
  have h3 := congrArg Prod.snd h2
  simp only at h3
  have h4 := congrArg Nat.unpair h3
  rw [Nat.unpair_pair, Nat.unpair_pair] at h4
  have h5 := congrArg Prod.snd h4
  simp only at h5
  exact encodeL_inj h5

/-- A concrete cipher satisfying the AEAD contract: the "ciphertext" is
the plaintext and the 1-entry tag encodes plaintext, IV and AAD. -/
def toyCipher : PgCipher where
  enc := fun pt iv aad => (pt, [toyTag pt iv aad])
  dec := fun ct iv aad tag =>
    if tag = [toyTag ct iv aad] then some ct else none
  taglen := 1
  enc_length := fun _ _ _ => rfl
  enc_taglen := fun _ _ _ => rfl
  dec_of_enc := by
    intro pt iv aad
    simp
  dec_bad_aad := by
    intro pt iv aad aad2 hne
    dsimp only
    rw [if_neg]
    intro heq
    simp only [List.cons.injEq, and_true] at heq
    exact hne (toyTag_aad_inj heq).symm

/-- A small valid engine configuration: 64-byte pages, 8-byte header,
body of 32 bytes, 17-byte feature slot (16-byte IV + 1-byte tag). -/
def toyCfg : BufEncConfig := ⟨64, 8, 40, 17⟩

/-- Witness for C2 at the toy engine with arguments (true, 42, 7). -/
theorem C2_aead_roundtrip_witness :
    (∃ pageD,
      DecryptPage toyCipher toyCfg
        (EncryptPage toyCipher toyCfg (fun _ => 5) 0 0
          (List.replicate 64 3) true 42 7).1 true 42 7 = some pageD ∧
      readBytes pageD toyCfg.pageEncryptOffset toyCfg.pageSizeI.toNat =
        readBytes (List.replicate 64 3) toyCfg.pageEncryptOffset
          toyCfg.pageSizeI.toNat) ∧
    DecryptPage toyCipher toyCfg
      (EncryptPage toyCipher toyCfg (fun _ => 5) 0 0
        (List.replicate 64 3) true 42 7).1 true 43 7 = none ∧
    DecryptPage toyCipher toyCfg
      (EncryptPage toyCipher toyCfg (fun _ => 5) 0 0
        (List.replicate 64 3) true 42 7).1 true 42 8 = none := by
  have h := C2_aead_roundtrip toyCipher toyCfg ⟨by decide, by decide, by decide⟩
    (by decide) (fun _ => 5) 0 0 (List.replicate 64 3) (by decide) true 42 7
    (by decide) (by decide)
  exact ⟨h.1, h.2.1 43 (by decide) (by decide), h.2.2 8 (by decide) (by decide)⟩

/-- Witness for C10 at the toy engine: both flag values give the same
encrypted page, and cross-flag decryption succeeds. -/
theorem C10_permanence_flag_irrelevant_witness :
    EncryptPage toyCipher toyCfg (fun _ => 5) 0 0 (List.replicate 64 3)
      true 42 7 =
    EncryptPage toyCipher toyCfg (fun _ => 5) 0 0 (List.replicate 64 3)
      false 42 7 ∧
    (∃ pageD,
      DecryptPage toyCipher toyCfg
        (EncryptPage toyCipher toyCfg (fun _ => 5) 0 0
          (List.replicate 64 3) true 42 7).1 false 42 7 = some pageD ∧
      readBytes pageD toyCfg.pageEncryptOffset toyCfg.pageSizeI.toNat =
        readBytes (List.replicate 64 3) toyCfg.pageEncryptOffset
          toyCfg.pageSizeI.toNat) := by
  have h := C10_permanence_flag_irrelevant toyCipher toyCfg (fun _ => 5) 0 0
    (List.replicate 64 3) 42 7
  exact ⟨h.1, h.2.2 ⟨by decide, by decide, by decide⟩ (by decide) (by decide)⟩

/-! ### C1: IV uniqueness of the nonce allocator -/

/-- The hypothesis under which IV uniqueness holds: the values returned by
the first `N` shared-atomic fetches are pairwise distinct in their low 54
bits (the bits that survive the left shift by `IV_MASK_BITS` in `uint64`
arithmetic). -/
def FetchDistinct (fetch : Nat → Nat) (N : Nat) : Prop :=
  ∀ j, j < N → ∀ i, i < j → fetch i % 2 ^ 54 ≠ fetch j % 2 ^ 54

theorem fetchDistinct_ne {fetch : Nat → Nat} {N i j : Nat}
    (hH : FetchDistinct fetch N) (hi : i < N) (hj : j < N) (hne : i ≠ j) :
    fetch i % 2 ^ 54 ≠ fetch j % 2 ^ 54 := by
  rcases Nat.lt_or_ge i j with h | h
  · exact hH j hj i h
  · have h2 : j < i := by omega
    exact fun he => (hH i hi j h2) he.symm

/-- Inductive invariant of the nonce-allocator system.  `tag p` records,
for a process in mid-batch, the index of the shared-atomic fetch that
opened its current batch. -/
def NonceInv (fetch : Nat → Nat) (N nfetch : Nat) (ctr : Nat → Nat)
    (tag : Nat → Nat) (emitted : List Nat) : Prop :=
  nfetch ≤ N ∧
  (∀ p, ctr p % 1024 ≠ 0 →
    tag p < nfetch ∧ ctr p / 1024 = fetch (tag p) % 2 ^ 54 ∧
    ctr p < 2 ^ 64) ∧
  (∀ p q, p ≠ q → ctr p % 1024 ≠ 0 → ctr q % 1024 ≠ 0 →
    tag p ≠ tag q) ∧
  (∀ iv ∈ emitted, iv < 2 ^ 64 ∧ ∃ f, f < nfetch ∧
    iv / 1024 = fetch f % 2 ^ 54) ∧
  (∀ p, ctr p % 1024 ≠ 0 → ∀ iv ∈ emitted,
    iv / 1024 = ctr p / 1024 → iv % 1024 < ctr p % 1024) ∧
  emitted.Nodup

theorem iv_mask_mod (n : Nat) : n &&& IV_COUNTER_MASK = n % 1024 := by
  have h : IV_COUNTER_MASK = 2 ^ 10 - 1 := by decide
  rw [h, Nat.and_pow_two_sub_one_eq_mod]

theorem digits_determine : ∀ (n a b : Nat), a < 256 ^ n → b < 256 ^ n →
    (∀ i, i < n → a / 256 ^ i % 256 = b / 256 ^ i % 256) → a = b := by
  intro n
  induction n with
  | zero =>
    intro a b ha hb _
    simp only [pow_zero] at ha hb
    omega
  | succ m ih =>
    intro a b ha hb hd
    have h0 := hd 0 (by omega)
    simp only [pow_zero, Nat.div_one] at h0
    have hrec : a / 256 = b / 256 := by
      apply ih
      · have : 256 ^ (m + 1) = 256 ^ m * 256 := pow_succ 256 m
        omega
      · have : 256 ^ (m + 1) = 256 ^ m * 256 := pow_succ 256 m
        omega
      · intro i hi
        have h2 := hd (i + 1) (by omega)
        have e1 : a / 256 / 256 ^ i = a / 256 ^ (i + 1) := by
          rw [Nat.div_div_eq_div_mul, ← pow_succ']
        have e2 : b / 256 / 256 ^ i = b / 256 ^ (i + 1) := by
          rw [Nat.div_div_eq_div_mul, ← pow_succ']
        rw [e1, e2]
        exact h2
    omega

theorem ivBytes_inj {a b : Nat} (ha : a < 2 ^ 64) (hb : b < 2 ^ 64)
    (h : ivBytes a = ivBytes b) : a = b := by
  unfold ivBytes at h
  have h2 := List.append_cancel_left h
  rw [List.map_inj_left] at h2
  apply digits_determine 8 a b (by norm_num at ha ⊢; omega)
    (by norm_num at hb ⊢; omega)
  intro i hi
  exact h2 i (List.mem_range.mpr hi)

theorem inv_step_refill (fetch : Nat → Nat) (N nfetch : Nat)
    (ctr : Nat → Nat) (tag : Nat → Nat) (emitted : List Nat) (p : Nat)
    (hH : FetchDistinct fetch N)
    (hinv : NonceInv fetch N nfetch ctr tag emitted) (hlt : nfetch < N) :
    NonceInv fetch N (nfetch + 1)
      (fun q => if q = p then (fetch nfetch % 2 ^ 54) * 1024 + 1 else ctr q)
      (fun q => if q = p then nfetch else tag q)
      (emitted ++ [(fetch nfetch % 2 ^ 54) * 1024]) := by
  obtain ⟨hn, hmid, htags, hemit, hcur, hnd⟩ := hinv
  have hg : fetch nfetch % 2 ^ 54 < 2 ^ 54 := Nat.mod_lt _ (by norm_num)
  have h64 : (2:Nat) ^ 64 = 2 ^ 54 * 1024 := by norm_num
  have hfresh : ∀ f, f < nfetch →
      fetch f % 2 ^ 54 ≠ fetch nfetch % 2 ^ 54 :=
    fun f hf => fetchDistinct_ne hH (by omega) hlt (by omega)
  refine ⟨(by omega : nfetch + 1 ≤ N), ?_, ?_, ?_, ?_, ?_⟩
  · intro q hq
    dsimp only at hq ⊢
    by_cases hqp : q = p
    · subst hqp
      rw [if_pos rfl] at hq ⊢
      rw [if_pos rfl]
      refine ⟨by omega, by omega, by omega⟩
    · rw [if_neg hqp] at hq ⊢
      rw [if_neg hqp]
      obtain ⟨h1, h2, h3⟩ := hmid q hq
      exact ⟨by omega, h2, h3⟩
  · intro q r hqr hq hr2
    dsimp only at hq hr2 ⊢
    by_cases hqp : q = p <;> by_cases hrp : r = p
    · exact absurd (hqp.trans hrp.symm) hqr
    · subst hqp
      rw [if_pos rfl]
      rw [if_neg hrp] at hr2 ⊢
      obtain ⟨h1, _, _⟩ := hmid r hr2
      omega
    · subst hrp
      rw [if_pos rfl]
      rw [if_neg hqp] at hq ⊢
      obtain ⟨h1, _, _⟩ := hmid q hq
      omega
    · rw [if_neg hqp] at hq ⊢
      rw [if_neg hrp] at hr2
      rw [if_neg hrp]
      exact htags q r hqr hq hr2
  · intro iv hiv
    rw [List.mem_append] at hiv
    rcases hiv with hiv | hiv
    · obtain ⟨h1, f, hf, h2⟩ := hemit iv hiv
      exact ⟨h1, f, by omega, h2⟩
    · rw [List.mem_singleton] at hiv
      subst hiv
      exact ⟨by omega, nfetch, by omega, by omega⟩
  · intro q hq iv hiv hdiv
    dsimp only at hq hdiv ⊢
    by_cases hqp : q = p
    · subst hqp
      rw [if_pos rfl] at hq hdiv ⊢
      rw [List.mem_append] at hiv
      rcases hiv with hiv | hiv
      · obtain ⟨_, f, hf, h2⟩ := hemit iv hiv
        exact absurd (by omega : fetch f % 2 ^ 54 = fetch nfetch % 2 ^ 54)
          (hfresh f hf)
      · rw [List.mem_singleton] at hiv
        subst hiv
        omega
    · rw [if_neg hqp] at hq hdiv ⊢
      rw [List.mem_append] at hiv
      rcases hiv with hiv | hiv
      · exact hcur q hq iv hiv hdiv
      · rw [List.mem_singleton] at hiv
        subst hiv
        obtain ⟨ht1, ht2, _⟩ := hmid q hq
        exact absurd
          (by omega : fetch (tag q) % 2 ^ 54 = fetch nfetch % 2 ^ 54)
          (fetchDistinct_ne hH (by omega) hlt (by omega))
  · rw [List.nodup_append]
    refine ⟨hnd, List.nodup_singleton _, ?_⟩
    intro iv hiv hiv2
    rw [List.mem_singleton] at hiv2
    subst hiv2
    obtain ⟨_, f, hf, h2⟩ := hemit _ hiv
    exact hfresh f hf (by omega)

theorem inv_step_mid (fetch : Nat → Nat) (N nfetch : Nat)
    (ctr : Nat → Nat) (tag : Nat → Nat) (emitted : List Nat) (p : Nat)
    (hH : FetchDistinct fetch N)
    (hinv : NonceInv fetch N nfetch ctr tag emitted)
    (hr : ctr p % 1024 ≠ 0) :
    NonceInv fetch N nfetch
      (fun q => if q = p then (ctr p + 1) % 2 ^ 64 else ctr q)
      tag (emitted ++ [ctr p]) := by
  obtain ⟨hn, hmid, htags, hemit, hcur, hnd⟩ := hinv
  obtain ⟨htp, hdivp, hltp⟩ := hmid p hr
  have h64 : (2:Nat) ^ 64 = 18446744073709551616 := by norm_num
  have hnotmem : ctr p ∉ emitted := by
    intro hmem
    have := hcur p hr (ctr p) hmem rfl
    omega
  refine ⟨hn, ?_, ?_, ?_, ?_, ?_⟩
  · intro q hq
    dsimp only at hq ⊢
    by_cases hqp : q = p
    · rw [hqp] at hq ⊢
      rw [if_pos rfl] at hq ⊢
      have hk : (ctr p + 1) % 2 ^ 64 / 1024 = ctr p / 1024 ∧
          (ctr p + 1) % 2 ^ 64 < 2 ^ 64 := by
        rw [h64] at hltp hq ⊢
        omega
      exact ⟨htp, by rw [hk.1]; exact hdivp, hk.2⟩
    · rw [if_neg hqp] at hq ⊢
      exact hmid q hq
  · intro q r hqr hq hr2
    dsimp only at hq hr2
    by_cases hqp : q = p <;> by_cases hrp : r = p
    · exact absurd (hqp.trans hrp.symm) hqr
    · rw [if_neg hrp] at hr2
      exact htags q r hqr (by rw [hqp]; exact hr) hr2
    · rw [if_neg hqp] at hq
      exact htags q r hqr hq (by rw [hrp]; exact hr)
    · rw [if_neg hqp] at hq
      rw [if_neg hrp] at hr2
      exact htags q r hqr hq hr2
  · intro iv hiv
    rw [List.mem_append] at hiv
    rcases hiv with hiv | hiv
    · exact hemit iv hiv
    · rw [List.mem_singleton] at hiv
      subst hiv
      exact ⟨hltp, tag p, htp, hdivp⟩
  · intro q hq iv hiv hdiv
    dsimp only at hq hdiv ⊢
    rw [List.mem_append] at hiv
    by_cases hqp : q = p
    · rw [hqp] at hq hdiv ⊢
      rw [if_pos rfl] at hq hdiv ⊢
      rcases hiv with hiv | hiv
      · have hdd : iv / 1024 = ctr p / 1024 := by
          rw [h64] at hltp hq hdiv
          omega
        have hold := hcur p hr iv hiv hdd
        rw [h64] at hltp hq hdiv ⊢
        omega
      · rw [List.mem_singleton] at hiv
        subst hiv
        rw [h64] at hltp hq hdiv ⊢
        omega
    · rw [if_neg hqp] at hq hdiv ⊢
      rcases hiv with hiv | hiv
      · exact hcur q hq iv hiv hdiv
      · rw [List.mem_singleton] at hiv
        subst hiv
        exfalso
        obtain ⟨htq, hdivq, _⟩ := hmid q hq
        have hne := htags p q (fun he => hqp he.symm) hr hq
        exact fetchDistinct_ne hH (by omega : tag p < N) (by omega)
          hne (by omega : fetch (tag p) % 2 ^ 54 = fetch (tag q) % 2 ^ 54)
  · rw [List.nodup_append]
    exact ⟨hnd, List.nodup_singleton _, by
      intro iv hiv hiv2
      rw [List.mem_singleton] at hiv2
      subst hiv2
      exact hnotmem hiv⟩

theorem nonceStep_inv (fetch : Nat → Nat) (N : Nat) (s : NonceSystem)
    (tag : Nat → Nat) (emitted : List Nat) (p : Nat)
    (hH : FetchDistinct fetch N)
    (hinv : NonceInv fetch N s.nfetch s.ctr tag emitted)
    (hlt : s.nfetch < N) :
    ∃ tag2, NonceInv fetch N (nonceStep fetch s p).2.nfetch
        (nonceStep fetch s p).2.ctr tag2
        (emitted ++ [(nonceStep fetch s p).1]) ∧
      (nonceStep fetch s p).2.nfetch ≤ s.nfetch + 1 := by
  by_cases hr : s.ctr p % 1024 = 0
  · have hg : fetch s.nfetch % 2 ^ 54 < 2 ^ 54 := Nat.mod_lt _ (by norm_num)
    have hc : (fetch s.nfetch <<< IV_MASK_BITS) % U64MOD =
        (fetch s.nfetch % 2 ^ 54) * 1024 := by
      have h1 : (2:Nat) ^ IV_MASK_BITS = 1024 := by decide
      rw [Nat.shiftLeft_eq, h1]
      show fetch s.nfetch * 1024 % 2 ^ 64 = _
      rw [show (2:Nat) ^ 64 = 2 ^ 54 * 1024 from by norm_num,
        Nat.mul_mod_mul_right]
    have hc1 : ((fetch s.nfetch % 2 ^ 54) * 1024 + 1) % U64MOD =
        (fetch s.nfetch % 2 ^ 54) * 1024 + 1 := by
      apply Nat.mod_eq_of_lt
      show _ < 2 ^ 64
      have h2 : (2:Nat) ^ 64 = 2 ^ 54 * 1024 := by norm_num
      omega
    have hstep : nonceStep fetch s p =
        ((fetch s.nfetch % 2 ^ 54) * 1024,
          ⟨s.nfetch + 1, fun q => if q = p then
            (fetch s.nfetch % 2 ^ 54) * 1024 + 1 else s.ctr q⟩) := by
      unfold nonceStep PlaceNewIV
      dsimp only
      rw [iv_mask_mod]
      simp only [if_pos hr]
      rw [hc, hc1]
    rw [hstep]
    exact ⟨fun q => if q = p then s.nfetch else tag q,
      inv_step_refill fetch N s.nfetch s.ctr tag emitted p hH hinv hlt,
      Nat.le_refl _⟩
  · have hstep : nonceStep fetch s p =
        (s.ctr p, ⟨s.nfetch, fun q => if q = p then (s.ctr p + 1) % U64MOD
          else s.ctr q⟩) := by
      unfold nonceStep PlaceNewIV
      dsimp only
      rw [iv_mask_mod]
      simp only [if_neg hr]
    rw [hstep]
    exact ⟨tag, inv_step_mid fetch N s.nfetch s.ctr tag emitted p hH hinv hr,
      Nat.le_succ _⟩

theorem runNonce_inv (fetch : Nat → Nat) (N : Nat)
    (hH : FetchDistinct fetch N) :
    ∀ (sched : List Nat) (s : NonceSystem) (tag : Nat → Nat)
      (emitted : List Nat),
      NonceInv fetch N s.nfetch s.ctr tag emitted →
      s.nfetch + sched.length ≤ N →
      ∃ tag2, NonceInv fetch N (runNonce fetch sched s).1.nfetch
        (runNonce fetch sched s).1.ctr tag2
        (emitted ++ (runNonce fetch sched s).2) := by
  intro sched
  induction sched with
  | nil =>
    intro s tag emitted hinv hb
    refine ⟨tag, ?_⟩
    simpa [runNonce] using hinv
  | cons p rest ih =>
    intro s tag emitted hinv hb
    obtain ⟨tag2, hinv2, hnf⟩ := nonceStep_inv fetch N s tag emitted p hH hinv
      (by simp only [List.length_cons] at hb; omega)
    obtain ⟨tag3, hinv3⟩ := ih (nonceStep fetch s p).2 tag2
      (emitted ++ [(nonceStep fetch s p).1]) hinv2
      (by simp only [List.length_cons] at hb; omega)
    refine ⟨tag3, ?_⟩
    have hrw : runNonce fetch (p :: rest) s =
        ((runNonce fetch rest (nonceStep fetch s p).2).1,
          (nonceStep fetch s p).1 ::
            (runNonce fetch rest (nonceStep fetch s p).2).2) := rfl
    rw [hrw]
    simpa [List.append_assoc] using hinv3

/-- C1 (corrected, amended): if the values returned by the shared atomic
fetch-and-increment are pairwise distinct IN THEIR LOW 54 BITS, then for
every interleaving of any number of processes all IVs emitted by
`PlaceNewIV` (the 8-byte private counter placed in the low-order bytes of
a zero-filled 16-byte block) are pairwise distinct.  Distinctness of the
raw 64-bit values is not enough, because the left shift by `IV_MASK_BITS`
discards the counter's top 10 bits modulo 2^64. -/
theorem C1_iv_uniqueness (fetch : Nat → Nat) (sched : List Nat)
    (hH : ∀ j, j < sched.length → ∀ i, i < j →
      fetch i % 2 ^ 54 ≠ fetch j % 2 ^ 54) :
    ((runNonce fetch sched initNonceSystem).2.map ivBytes).Nodup := by
  have hinv0 : NonceInv fetch sched.length initNonceSystem.nfetch
      initNonceSystem.ctr (fun _ => 0) [] := by
    refine ⟨Nat.zero_le _, ?_, ?_, ?_, ?_, List.nodup_nil⟩
    · intro p hp
      simp [initNonceSystem] at hp
    · intro p q _ hp _
      simp [initNonceSystem] at hp
    · intro iv hiv
      simp at hiv
    · intro p hp
      simp [initNonceSystem] at hp
  obtain ⟨tag2, hinv⟩ := runNonce_inv fetch sched.length hH sched
    initNonceSystem (fun _ => 0) [] hinv0 (by simp [initNonceSystem])
  obtain ⟨_, _, _, hemit, _, hnd⟩ := hinv
  simp only [List.nil_append] at hemit hnd
  apply List.Nodup.map_on ?_ hnd
  intro x hx y hy hxy
  exact ivBytes_inj (hemit x hx).1 (hemit y hy).1 hxy

/-- Witness for C1 at a concrete fetch sequence and interleaving: two
calls by process 0, one by process 1. -/
theorem C1_iv_uniqueness_witness :
    ((runNonce (fun i => i) [0, 0, 1] initNonceSystem).2.map ivBytes).Nodup :=
  C1_iv_uniqueness (fun i => i) [0, 0, 1] (by decide)

/-- Shared-counter values for the counterexample: 0 and 2^54, distinct as
64-bit values but equal modulo 2^54. -/
def fetchCEx : Nat → Nat := fun i => i * 2 ^ 54

/-- Counterexample to C1 as stated: the fetches return the pairwise
distinct values 0 and 2^54, yet the two processes of the interleaving
[0, 1] both load private counter 0 (the left shift by 10 wraps modulo
2^64) and emit identical 16-byte IVs. -/
theorem C1_counterexample :
    fetchCEx 0 ≠ fetchCEx 1 ∧
    ¬ ((runNonce fetchCEx [0, 1] initNonceSystem).2.map ivBytes).Nodup := by
  exact ⟨by decide, by decide⟩

/-! ### C4: catalog persistence round trip -/

/-- The body of the catalog file: the concatenated feature lines. -/
def catBody (ds : List AllocatedPageFeatureDesc) : List Char :=
  (ds.map featLine).join

/-- Offsets are the exact running sums of the preceding sizes. -/
def RunningOffsets : Nat → List AllocatedPageFeatureDesc → Prop
  | _, [] => True
  | t, d :: ds => d.offset = t ∧ RunningOffsets (t + d.size) ds

/-- Offsets are the `uint16`-wrapped running sums of the preceding sizes
(what `appendFeat` maintains literally). -/
def RunningOffsetsW : Nat → List AllocatedPageFeatureDesc → Prop
  | _, [] => True
  | t, d :: ds => d.offset = u16 t ∧ RunningOffsetsW (t + d.size) ds

/-- Registries reachable from a given one by successful
`PageFeatureSetAddFeatureByName` calls only. -/
inductive BuiltFrom : PageFeatureSetData → PageFeatureSetData → Prop
  | refl (pfs : PageFeatureSetData) : BuiltFrom pfs pfs
  | step (pfs0 pfs1 : PageFeatureSetData) (name : List Char) (size : Nat) :
      BuiltFrom pfs0 pfs1 →
      (PageFeatureSetAddFeatureByName pfs1 name size).1 = true →
      BuiltFrom pfs0 (PageFeatureSetAddFeatureByName pfs1 name size).2

/-- Claim C4's "registry built only by successful add_feature calls":
reachable from a fresh `NewPageFeatureSet`. -/
def Built (pfs : PageFeatureSetData) : Prop :=
  ∃ nm cap maxf, BuiltFrom (NewPageFeatureSet nm cap maxf) pfs

/-- Structural facts holding of every registry built by successful adds:
unlocked, `uint16`-bounded bytes, `bytes_used` the (wrapped) sum of the
stored sizes, offsets the (wrapped) running sums, and every descriptor
carrying a 19-character-capped name, a nonzero size that is a multiple
of 8, and built-in marks consistent with `findBuiltin` and the bitmap. -/
def RegInv (pfs : PageFeatureSetData) : Prop :=
  pfs.locked = false ∧
  pfs.bytes_managed < 65536 ∧
  pfs.bytes_used = u16 ((pfs.feats.map (fun d => d.size)).sum) ∧
  RunningOffsetsW 0 pfs.feats ∧
  ∀ d ∈ pfs.feats, d.name.length ≤ 19 ∧ d.size ≠ 0 ∧ d.size % 8 = 0 ∧
    d.size < 65536 ∧
    (d.isbuiltin = true → findBuiltin d.name = some d.builtin ∧
      pfs.builtin_bitmap.testBit d.builtin = true) ∧
    (d.isbuiltin = false → findBuiltin d.name = none ∧ d.builtin = 0)

theorem digitsVal_append_one (l : List Char) (c : Char) :
    digitsVal (l ++ [c]) = digitsVal l * 10 + (c.toNat - 48) := by
  unfold digitsVal
  rw [List.foldl_append, List.foldl_cons, List.foldl_nil]

theorem showNatAux_spec : ∀ fuel n, n < fuel →
    showNatAux fuel n ≠ [] ∧ (∀ c ∈ showNatAux fuel n, c.isDigit = true) ∧
    digitsVal (showNatAux fuel n) = n := by
  intro fuel
  induction fuel with
  | zero => intro n h; omega
  | succ fuel ih =>
    intro n h
    by_cases h10 : n < 10
    · have hd : (Nat.digitChar n).isDigit = true := by
        interval_cases n <;> decide
      have ht : (Nat.digitChar n).toNat - 48 = n := by
        interval_cases n <;> decide
      refine ⟨by simp [showNatAux, h10], ?_, ?_⟩
      · intro c hc
        simp only [showNatAux, if_pos h10, List.mem_singleton] at hc
        rw [hc]; exact hd
      · simp only [showNatAux, if_pos h10]
        show 0 * 10 + ((Nat.digitChar n).toNat - 48) = n
        simpa using ht
    · have hdiv : n / 10 < n := Nat.div_lt_self (by omega) (by norm_num)
      have hlt : n / 10 < fuel := by omega
      obtain ⟨ih1, ih2, ih3⟩ := ih (n / 10) hlt
      have h9 : n % 10 < 10 := Nat.mod_lt _ (by norm_num)
      have hmod : (Nat.digitChar (n % 10)).isDigit = true := by
        revert h9; generalize n % 10 = m; intro h9
        interval_cases m <;> decide
      have htm : (Nat.digitChar (n % 10)).toNat - 48 = n % 10 := by
        revert h9; generalize n % 10 = m; intro h9
        interval_cases m <;> decide
      refine ⟨by simp [showNatAux, h10], ?_, ?_⟩
      · intro c hc
        simp only [showNatAux, if_neg h10, List.mem_append,
          List.mem_singleton] at hc
        rcases hc with hc | hc
        · exact ih2 c hc
        · rw [hc]; exact hmod
      · simp only [showNatAux, if_neg h10]
        rw [digitsVal_append_one, ih3, htm]
        omega

theorem showNat_spec (n : Nat) :
    showNat n ≠ [] ∧ (∀ c ∈ showNat n, c.isDigit = true) ∧
    digitsVal (showNat n) = n :=
  showNatAux_spec (n + 1) n (Nat.lt_succ_self n)

theorem isDigit_not_space {c : Char} (h : c.isDigit = true) :
    isSpaceChar c = false := by
  have e1 : c ≠ ' ' := fun e => absurd (e ▸ h) (by decide)
  have e2 : c ≠ '\t' := fun e => absurd (e ▸ h) (by decide)
  have e3 : c ≠ '\n' := fun e => absurd (e ▸ h) (by decide)
  have e4 : c ≠ '\x0b' := fun e => absurd (e ▸ h) (by decide)
  have e5 : c ≠ '\x0c' := fun e => absurd (e ▸ h) (by decide)
  have e6 : c ≠ '\r' := fun e => absurd (e ▸ h) (by decide)
  simp [isSpaceChar, e1, e2, e3, e4, e5, e6]

theorem takeWhile_app_cons {p : Char → Bool} :
    ∀ (l : List Char) (c : Char) (r : List Char), (∀ x ∈ l, p x = true) →
      p c = false → (l ++ c :: r).takeWhile p = l := by
  intro l
  induction l with
  | nil => intro c r _ hc; simp [List.takeWhile_cons, hc]
  | cons x xs ih =>
    intro c r hl hc
    have hx : p x = true := hl x (List.mem_cons_self x xs)
    simp [List.takeWhile_cons, hx,
      ih c r (fun y hy => hl y (List.mem_cons_of_mem _ hy)) hc]

theorem parseIntC_space {c : Char} (cs : List Char)
    (hc : isSpaceChar c = true) : parseIntC (c :: cs) = parseIntC cs := by
  unfold parseIntC
  rw [List.dropWhile_cons_of_pos hc]

theorem parseIntC_showNat (n : Nat) (c : Char) (r : List Char)
    (hc : c.isDigit = false) :
    parseIntC (showNat n ++ c :: r) = some ((n : Int), c :: r) := by
  obtain ⟨hne, hdig, hval⟩ := showNat_spec n
  obtain ⟨d, ds, hds⟩ := List.exists_cons_of_ne_nil hne
  have hd : d.isDigit = true := hdig d (by rw [hds]; exact List.mem_cons_self _ _)
  have hns : isSpaceChar d = false := isDigit_not_space hd
  have hdw : (showNat n ++ c :: r).dropWhile isSpaceChar =
      showNat n ++ c :: r := by
    rw [hds]
    simp [List.cons_append, List.dropWhile_cons, hns]
  unfold parseIntC
  dsimp only
  rw [hdw, hds]
  simp only [List.cons_append]
  split
  · rename_i rest heq
    simp only [List.cons.injEq] at heq
    rw [heq.1] at hd
    exact absurd hd (by decide)
  · rename_i rest heq
    simp only [List.cons.injEq] at heq
    rw [heq.1] at hd
    exact absurd hd (by decide)
  · have htw : (d :: (ds ++ c :: r)).takeWhile Char.isDigit = d :: ds := by
      rw [← List.cons_append]
      exact takeWhile_app_cons (d :: ds) c r
        (fun x hx => hdig x (by rw [hds]; exact hx)) hc
    rw [htw]
    rw [if_neg (List.cons_ne_nil d ds)]
    have hdv : digitsVal (d :: ds) = n := by rw [← hds]; exact hval
    have hdr : (d :: (ds ++ c :: r)).drop (d :: ds).length = c :: r := by
      rw [← List.cons_append]
      exact List.drop_left _ _
    rw [hdv, hdr]

theorem isPrefixOf_append (l m : List Char) : l.isPrefixOf (l ++ m) = true := by
  induction l with
  | nil => simp [List.isPrefixOf]
  | cons a as ih => simp [List.isPrefixOf, ih]

theorem parseFeatLine_featLine (d : AllocatedPageFeatureDesc)
    (rest : List Char) (h1 : d.name ≠ []) (h2 : d.name.length ≤ 19)
    (h3 : '=' ∉ d.name) (hrest : rest.dropWhile isSpaceChar = rest) :
    parseFeatLine (featLine d ++ rest) =
      some (d.name, (d.offset : Int), (d.size : Int), rest) := by
  have ht20 : d.name.take 20 = d.name := List.take_of_length_le (by omega)
  have hshape : featLine d ++ rest = d.name ++ '=' ::
      (showNat d.offset ++ ',' :: (showNat d.size ++ '\n' :: rest)) := by
    simp [featLine, ht20, List.append_assoc, List.cons_append]
  rw [hshape]
  unfold parseFeatLine
  dsimp only
  have htw : ((d.name ++ '=' ::
      (showNat d.offset ++ ',' :: (showNat d.size ++ '\n' :: rest))).takeWhile
        (fun c => c ≠ '=')).take 20 = d.name := by
    rw [@takeWhile_app_cons (fun c => decide (c ≠ '=')) d.name '='
      (showNat d.offset ++ ',' :: (showNat d.size ++ '\n' :: rest))
      (fun x hx => decide_eq_true (fun he => h3 (he ▸ hx))) (by decide)]
    exact ht20
  rw [htw]
  rw [if_neg h1]
  have hdr : (d.name ++ '=' ::
      (showNat d.offset ++ ',' :: (showNat d.size ++ '\n' :: rest))).drop
        d.name.length = '=' ::
      (showNat d.offset ++ ',' :: (showNat d.size ++ '\n' :: rest)) :=
    List.drop_left _ _
  rw [hdr]
  show (match parseIntC (showNat d.offset ++ ',' ::
      (showNat d.size ++ '\n' :: rest)) with
    | none => none
    | some (off, cs2) =>
      match parseChar ',' cs2 with
      | none => none
      | some cs3 =>
        match parseIntC cs3 with
        | none => none
        | some (sz, cs4) =>
          some (d.name, off, sz, cs4.dropWhile isSpaceChar)) = _
  rw [parseIntC_showNat d.offset ',' _ (by decide)]
  show (match parseIntC (showNat d.size ++ '\n' :: rest) with
    | none => none
    | some (sz, cs4) =>
      some (d.name, (d.offset : Int), sz, cs4.dropWhile isSpaceChar)) = _
  rw [parseIntC_showNat d.size '\n' rest (by decide)]
  show some (d.name, (d.offset : Int), (d.size : Int),
    ('\n' :: rest).dropWhile isSpaceChar) = _
  rw [List.dropWhile_cons_of_pos (by decide), hrest]

theorem parseHeader_content (a b : Nat) (body : List Char)
    (hbody : body.dropWhile isSpaceChar = body) :
    parseHeader ("features ".toList ++
        (showNat a ++ ' ' :: (showNat b ++ '\n' :: body))) =
      some ((a : Int), (b : Int), body) := by
  have hshape : "features ".toList ++
      (showNat a ++ ' ' :: (showNat b ++ '\n' :: body)) =
      "features".toList ++ (' ' ::
        (showNat a ++ ' ' :: (showNat b ++ '\n' :: body))) := by
    rw [show "features ".toList = "features".toList ++ [' '] from rfl,
      List.append_assoc]
    rfl
  rw [hshape]
  unfold parseHeader parseLit
  rw [isPrefixOf_append]
  rw [if_pos rfl]
  show (match parseIntC (("features".toList ++ (' ' ::
      (showNat a ++ ' ' :: (showNat b ++ '\n' :: body)))).drop
        "features".toList.length) with
    | none => none
    | some (count, cs2) =>
      match parseIntC cs2 with
      | none => none
      | some (size, cs3) => some (count, size, cs3.dropWhile isSpaceChar)) = _
  rw [List.drop_left]
  rw [parseIntC_space _ (by decide), parseIntC_showNat a ' ' _ (by decide)]
  show (match parseIntC (' ' :: (showNat b ++ '\n' :: body)) with
    | none => none
    | some (size, cs3) =>
      some ((a : Int), size, cs3.dropWhile isSpaceChar)) = _
  rw [parseIntC_space _ (by decide), parseIntC_showNat b '\n' body (by decide)]
  show some ((a : Int), (b : Int),
    ('\n' :: body).dropWhile isSpaceChar) = _
  rw [List.dropWhile_cons_of_pos (by decide), hbody]

theorem catBody_cons (d : AllocatedPageFeatureDesc)
    (ds : List AllocatedPageFeatureDesc) :
    catBody (d :: ds) = featLine d ++ catBody ds := by
  simp [catBody]

theorem catBody_length_ge :
    ∀ ds : List AllocatedPageFeatureDesc, ds.length ≤ (catBody ds).length := by
  intro ds
  induction ds with
  | nil => simp
  | cons d ds ih =>
    rw [catBody_cons]
    have h1 : 1 ≤ (featLine d).length := by
      unfold featLine
      cases h : d.name.take 20 with
      | nil => simp
      | cons c cs => simp
    simp only [List.length_cons, List.length_append]
    omega

theorem catBody_dropWhile (ds : List AllocatedPageFeatureDesc)
    (h : ∀ d ∈ ds, d.name ≠ [] ∧ isSpaceChar d.name.headI = false) :
    (catBody ds).dropWhile isSpaceChar = catBody ds := by
  cases ds with
  | nil => rfl
  | cons d ds =>
    obtain ⟨h1, h2⟩ := h d (List.mem_cons_self _ _)
    obtain ⟨c, cs, hc⟩ := List.exists_cons_of_ne_nil h1
    have hhead : isSpaceChar c = false := by rw [hc] at h2; exact h2
    rw [catBody_cons]
    unfold featLine
    rw [hc, List.take_succ_cons]
    simp only [List.cons_append]
    rw [List.dropWhile_cons_of_neg (by simp [hhead])]

theorem writeFeatLoop_of :
    ∀ (ds : List AllocatedPageFeatureDesc) (t : Nat),
      RunningOffsets t ds → (∀ d ∈ ds, d.size ≠ 0) →
      writeFeatLoop ds t =
        some (catBody ds, t + (ds.map (fun d => d.size)).sum) := by
  intro ds
  induction ds with
  | nil => intro t _ _; simp [writeFeatLoop, catBody]
  | cons d ds ih =>
    intro t hro hsz
    obtain ⟨ho, hro2⟩ := hro
    unfold writeFeatLoop
    rw [if_neg (by simp [ho, hsz d (List.mem_cons_self d ds)])]
    rw [ih (t + d.size) hro2 (fun x hx => hsz x (List.mem_cons_of_mem _ hx))]
    simp [catBody, Nat.add_assoc]

theorem addFeature_replay (pfs : PageFeatureSetData)
    (d : AllocatedPageFeatureDesc)
    (hlock : pfs.locked = false)
    (hman : pfs.bytes_managed < 65536)
    (hcap : pfs.feats.length < pfs.feat_capacity)
    (hroom : pfs.bytes_used + d.size ≤ pfs.bytes_managed)
    (hnew : d.name ∉ pfs.feats.map (fun x => x.name))
    (hn2 : d.name.length ≤ 19)
    (hs1 : d.size ≠ 0) (hs2 : d.size % 8 = 0)
    (hoff : d.offset = pfs.bytes_used)
    (hb1 : d.isbuiltin = true → findBuiltin d.name = some d.builtin)
    (hb2 : d.isbuiltin = false → findBuiltin d.name = none ∧ d.builtin = 0) :
    ∃ bm, PageFeatureSetAddFeatureByName pfs d.name (intToU16 (d.size : Int)) =
      (true, { pfs with
        feats := pfs.feats ++ [d],
        bytes_used := pfs.bytes_used + d.size,
        builtin_bitmap := bm }) := by
  have hds65 : d.size < 65536 := by omega
  have hi16 : intToU16 ((d.size : Nat) : Int) = d.size := by
    rw [intToU16_of_range (Int.natCast_nonneg _) (by exact_mod_cast hds65)]
    simp
  have hsz1 : u16 (roundUp8 (u16 (intToU16 ((d.size : Nat) : Int)))) =
      d.size := by
    rw [hi16, u16_eq_of_lt hds65, roundUp8_of_mod8 hs2, u16_eq_of_lt hds65]
  have htk : d.name.take 19 = d.name := List.take_of_length_le hn2
  have hu : u16 (pfs.bytes_used + d.size) = pfs.bytes_used + d.size :=
    u16_eq_of_lt (by omega)
  have hdup : pfs.feats.any (fun x => x.name = d.name) = false := by
    rw [List.any_eq_false]
    intro x hx
    simp only [decide_eq_true_eq]
    exact fun he => hnew (List.mem_map.mpr ⟨x, hx, he⟩)
  obtain ⟨dn, doff, dsz, dib, dbi⟩ := d
  dsimp only at hn2 hs1 hs2 hds65 hoff hb1 hb2 hnew hroom hi16 hsz1 htk hu hdup
  unfold PageFeatureSetAddFeatureByName
  dsimp only
  rw [if_neg (by omega : ¬ pfs.feats.length ≥ pfs.feat_capacity)]
  rw [hsz1]
  rw [if_neg (by omega :
    ¬ ((dsz : Int) > (pfs.bytes_managed : Int) - (pfs.bytes_used : Int)))]
  rw [hdup]
  rw [if_neg (by simp)]
  cases hbi : dib with
  | true =>
    rw [hb1 hbi]
    dsimp only
    rw [if_neg (by rw [hlock]; simp)]
    rw [if_neg hs1, if_neg hs1]
    refine ⟨pfs.builtin_bitmap ||| (1 <<< dbi), ?_⟩
    unfold appendFeat
    show (true, { pfs with
      builtin_bitmap := pfs.builtin_bitmap ||| (1 <<< dbi),
      feats := pfs.feats ++
        [(⟨dn.take 19, pfs.bytes_used, dsz, true, dbi⟩ :
          AllocatedPageFeatureDesc)],
      bytes_used := u16 (pfs.bytes_used + dsz) }) = _
    rw [htk, hu, ← hoff, ← hbi]
  | false =>
    obtain ⟨hf, hb0⟩ := hb2 hbi
    rw [hf]
    dsimp only
    rw [if_neg hs1]
    refine ⟨pfs.builtin_bitmap, ?_⟩
    unfold appendFeat
    show (true, { pfs with
      feats := pfs.feats ++
        [(⟨dn.take 19, pfs.bytes_used, dsz, false, 0⟩ :
          AllocatedPageFeatureDesc)],
      bytes_used := u16 (pfs.bytes_used + dsz) }) = _
    rw [htk, hu, ← hoff, ← hbi, ← hb0]

theorem readFeatLoop_replay :
    ∀ (ds : List AllocatedPageFeatureDesc) (fuel : Nat)
      (pfs : PageFeatureSetData) (count size tot_cnt : Int),
      ds.length < fuel →
      pfs.locked = false →
      pfs.bytes_managed < 65536 →
      pfs.feats.length + ds.length ≤ pfs.feat_capacity →
      pfs.bytes_used + (ds.map (fun d => d.size)).sum ≤ pfs.bytes_managed →
      ((pfs.feats ++ ds).map (fun d => d.name)).Nodup →
      (∀ d ∈ ds, d.name ≠ [] ∧ d.name.length ≤ 19 ∧ '=' ∉ d.name ∧
        isSpaceChar d.name.headI = false ∧ d.size ≠ 0 ∧ d.size % 8 = 0 ∧
        (d.isbuiltin = true → findBuiltin d.name = some d.builtin) ∧
        (d.isbuiltin = false → findBuiltin d.name = none ∧ d.builtin = 0)) →
      RunningOffsets pfs.bytes_used ds →
      count = tot_cnt + ds.length →
      size = (pfs.bytes_used : Int) +
        ((((ds.map (fun d => d.size)).sum : Nat)) : Int) →
      ∃ pfsOut,
        readFeatLoop fuel (catBody ds) pfs count size
          (pfs.bytes_used : Int) tot_cnt = some pfsOut ∧
        pfsOut.feats = pfs.feats ++ ds ∧ pfsOut.locked = true := by
  intro ds
  induction ds with
  | nil =>
    intro fuel pfs count size tot_cnt hfuel hlock hman hcap hroom hnd hall
      hro hcount hsize
    obtain ⟨f, rfl⟩ : ∃ f, fuel = f + 1 := ⟨fuel - 1, by omega⟩
    refine ⟨{ pfs with locked := true }, ?_, by simp, rfl⟩
    simp only [List.length_nil, Nat.cast_zero, add_zero] at hcount
    simp only [List.map_nil, List.sum_nil, Nat.cast_zero, add_zero] at hsize
    unfold readFeatLoop
    rw [show parseFeatLine (catBody []) = none from rfl]
    rw [if_neg (by omega), if_neg (by omega)]
  | cons d ds ih =>
    intro fuel pfs count size tot_cnt hfuel hlock hman hcap hroom hnd hall
      hro hcount hsize
    obtain ⟨f, rfl⟩ : ∃ f, fuel = f + 1 := ⟨fuel - 1, by omega⟩
    obtain ⟨hn1, hn2, hn3, hn4, hs1, hs2, hb1, hb2⟩ :=
      hall d (List.mem_cons_self d ds)
    obtain ⟨ho1, hro2⟩ := hro
    simp only [List.map_cons, List.sum_cons] at hroom hsize
    rw [Nat.cast_add] at hsize
    simp only [List.length_cons] at hfuel hcap hcount
    push_cast at hcount
    have hnew : d.name ∉ pfs.feats.map (fun x => x.name) := by
      simp only [List.map_append] at hnd
      rw [List.nodup_append] at hnd
      exact fun hmem => hnd.2.2 hmem (by simp)
    obtain ⟨bm, hadd⟩ := addFeature_replay pfs d hlock hman (by omega)
      (by omega) hnew hn2 hs1 hs2 ho1 hb1 hb2
    have hrest : (catBody ds).dropWhile isSpaceChar = catBody ds :=
      catBody_dropWhile ds (fun x hx =>
        ⟨(hall x (List.mem_cons_of_mem _ hx)).1,
         (hall x (List.mem_cons_of_mem _ hx)).2.2.2.1⟩)
    rw [catBody_cons]
    unfold readFeatLoop
    rw [parseFeatLine_featLine d (catBody ds) hn1 hn2 hn3 hrest]
    dsimp only
    rw [if_neg (fun h => hn1 (List.length_eq_zero.mp h))]
    have hpos : 0 < d.size := Nat.pos_of_ne_zero hs1
    rw [if_neg (by rw [ho1]; omega :
      ¬ ((d.offset : Int) < 0 ∨ (d.offset : Int) > size ∨
        (d.size : Int) ≤ 0 ∨ (d.size : Int) > size))]
    rw [if_neg (by rw [ho1]; exact fun h => h rfl)]
    rw [hadd]
    dsimp only
    obtain ⟨pfsOut, hrun, hfeats, hlk⟩ := ih f ({ pfs with
        feats := pfs.feats ++ [d],
        bytes_used := pfs.bytes_used + d.size,
        builtin_bitmap := bm }) count size (tot_cnt + 1)
      (by omega) hlock hman
      (by show (pfs.feats ++ [d]).length + ds.length ≤ pfs.feat_capacity
          simp only [List.length_append, List.length_singleton]
          omega)
      (by show pfs.bytes_used + d.size + (ds.map (fun d => d.size)).sum ≤
            pfs.bytes_managed
          omega)
      (by show (((pfs.feats ++ [d]) ++ ds).map (fun d => d.name)).Nodup
          simp only [List.append_assoc, List.singleton_append]
          exact hnd)
      (fun x hx => hall x (List.mem_cons_of_mem _ hx))
      hro2
      (by push_cast; omega)
      (by show size = ((pfs.bytes_used + d.size : Nat) : Int) +
            ((((ds.map (fun d => d.size)).sum : Nat)) : Int)
          rw [Nat.cast_add]
          omega)
    refine ⟨pfsOut, ?_, ?_, hlk⟩
    · exact hrun
    · rw [hfeats]
      show (pfs.feats ++ [d]) ++ ds = pfs.feats ++ d :: ds
      simp

theorem findBuiltin_name {nm : List Char} {i : Nat}
    (h : findBuiltin nm = some i) :
    builtinName i = nm ∧ i < PF_MAX_FEATURE := by
  unfold findBuiltin at h
  constructor
  · have hp := List.find?_some h
    simp only [decide_eq_true_eq] at hp
    exact hp
  · exact List.mem_range.mp (List.mem_of_find?_eq_some h)

theorem findBuiltin_take19_some {nm : List Char} {i : Nat}
    (h : findBuiltin nm = some i) : findBuiltin (nm.take 19) = some i := by
  obtain ⟨hn, hi⟩ := findBuiltin_name h
  have hi2 : i < 2 := hi
  have hlen : nm.length ≤ 19 := by
    rw [← hn]
    interval_cases i <;> decide
  rw [List.take_of_length_le hlen]
  exact h

theorem findBuiltin_take19_none {nm : List Char}
    (h : findBuiltin nm = none) : findBuiltin (nm.take 19) = none := by
  by_cases hlen : nm.length ≤ 19
  · rw [List.take_of_length_le hlen]
    exact h
  · cases hf : findBuiltin (nm.take 19) with
    | none => rfl
    | some i =>
      obtain ⟨hn, hi⟩ := findBuiltin_name hf
      have hi2 : i < 2 := hi
      have h19 : (nm.take 19).length = 19 := by
        rw [List.length_take]
        omega
      rw [← hn] at h19
      interval_cases i <;> revert h19 <;> decide

theorem u16_add_left (a b : Nat) : u16 (u16 a + b) = u16 (a + b) := by
  unfold u16
  omega

theorem runningOffsetsW_append (d : AllocatedPageFeatureDesc) :
    ∀ (ds : List AllocatedPageFeatureDesc) (t : Nat), RunningOffsetsW t ds →
      d.offset = u16 (t + (ds.map (fun x => x.size)).sum) →
      RunningOffsetsW t (ds ++ [d]) := by
  intro ds
  induction ds with
  | nil =>
    intro t _ hoff
    exact ⟨by simpa using hoff, trivial⟩
  | cons e es ih =>
    intro t hro hoff
    obtain ⟨h1, h2⟩ := hro
    refine ⟨h1, ih (t + e.size) h2 ?_⟩
    rw [hoff]
    congr 1
    simp only [List.map_cons, List.sum_cons]
    omega

theorem addFeature_true_shape (pfs : PageFeatureSetData) (nm : List Char)
    (s : Nat) (hok : (PageFeatureSetAddFeatureByName pfs nm s).1 = true) :
    ∃ sz isb bi bm,
      (PageFeatureSetAddFeatureByName pfs nm s).2 =
        appendFeat { pfs with builtin_bitmap := bm } nm sz isb bi ∧
      sz ≠ 0 ∧ sz % 8 = 0 ∧ sz < 65536 ∧
      (isb = true → findBuiltin nm = some bi ∧ bm.testBit bi = true) ∧
      (isb = false → findBuiltin nm = none ∧ bi = 0) ∧
      (∀ j, pfs.builtin_bitmap.testBit j = true → bm.testBit j = true) := by
  have hu8 : ∀ x : Nat, u16 (roundUp8 (u16 x)) % 8 = 0 := by
    intro x; unfold u16 roundUp8; omega
  have hu65 : ∀ x : Nat, u16 x < 65536 := by
    intro x; unfold u16; omega
  unfold PageFeatureSetAddFeatureByName at hok ⊢
  dsimp only at hok ⊢
  split at hok
  · simp at hok
  · rename_i hcap
    rw [if_neg hcap]
    split at hok
    · simp at hok
    · rename_i hroom
      rw [if_neg hroom]
      split at hok
      · simp at hok
      · rename_i hdup
        rw [if_neg hdup]
        split at hok
        · rename_i i heq
          rw [heq]
          split at hok
          · simp at hok
          · rename_i hlk
            rw [if_neg hlk]
            by_cases h0 : u16 (roundUp8 (u16 s)) = 0
            · rw [if_pos h0] at hok ⊢
              split at hok
              · simp at hok
              · rename_i hsz2
                rw [if_neg hsz2]
                have hi : i < 2 := (findBuiltin_name heq).2
                refine ⟨_, true, i, pfs.builtin_bitmap ||| (1 <<< i), rfl,
                  hsz2, ?_, ?_, ?_, ?_, ?_⟩
                · interval_cases i <;> decide
                · interval_cases i <;> decide
                · intro _
                  refine ⟨rfl, ?_⟩
                  rw [Nat.testBit_or, Nat.shiftLeft_eq, one_mul,
                    Nat.testBit_two_pow_self]
                  simp
                · intro h
                  exact absurd h (by decide)
                · intro j hj
                  rw [Nat.testBit_or, hj]
                  simp
            · rw [if_neg h0] at hok ⊢
              split at hok
              · simp at hok
              · rename_i hsz2
                rw [if_neg hsz2]
                refine ⟨_, true, i, pfs.builtin_bitmap ||| (1 <<< i), rfl,
                  hsz2, hu8 s, hu65 _, ?_, ?_, ?_⟩
                · intro _
                  refine ⟨rfl, ?_⟩
                  rw [Nat.testBit_or, Nat.shiftLeft_eq, one_mul,
                    Nat.testBit_two_pow_self]
                  simp
                · intro h
                  exact absurd h (by decide)
                · intro j hj
                  rw [Nat.testBit_or, hj]
                  simp
        · rename_i heq
          rw [heq]
          split at hok
          · simp at hok
          · rename_i hsz1
            rw [if_neg hsz1]
            refine ⟨_, false, 0, pfs.builtin_bitmap, rfl, hsz1,
              hu8 s, hu65 _, ?_, ?_, fun j hj => hj⟩
            · intro h
              exact absurd h (by decide)
            · intro _
              exact ⟨rfl, rfl⟩

theorem regInv_new (nm : List Char) (cap maxf : Nat) :
    RegInv (NewPageFeatureSet nm cap maxf) := by
  refine ⟨rfl, ?_, rfl, trivial, ?_⟩
  · show u16 cap < 65536
    unfold u16
    omega
  · intro d hd
    exact absurd hd (List.not_mem_nil d)

theorem regInv_add (pfs : PageFeatureSetData) (nm : List Char) (s : Nat)
    (hinv : RegInv pfs)
    (hok : (PageFeatureSetAddFeatureByName pfs nm s).1 = true) :
    RegInv (PageFeatureSetAddFeatureByName pfs nm s).2 := by
  obtain ⟨sz, isb, bi, bm, hE, hsz0, hsz8, hsz65, hbt, hbf, hmono⟩ :=
    addFeature_true_shape pfs nm s hok
  obtain ⟨hlock, hman, hused, hrow, hall⟩ := hinv
  rw [hE]
  unfold appendFeat
  refine ⟨hlock, hman, ?_, ?_, ?_⟩
  · show u16 (pfs.bytes_used + sz) =
      u16 (((pfs.feats ++ [(⟨nm.take 19, pfs.bytes_used, sz, isb, bi⟩ :
        AllocatedPageFeatureDesc)]).map (fun d => d.size)).sum)
    rw [hused, u16_add_left]
    congr 1
    simp
  · show RunningOffsetsW 0 (pfs.feats ++
      [(⟨nm.take 19, pfs.bytes_used, sz, isb, bi⟩ :
        AllocatedPageFeatureDesc)])
    refine runningOffsetsW_append _ pfs.feats 0 hrow ?_
    show pfs.bytes_used = u16 (0 + (pfs.feats.map (fun x => x.size)).sum)
    rw [hused]
    congr 1
    omega
  · intro d hd
    rcases List.mem_append.mp hd with hx | hx
    · obtain ⟨g1, g2, g3, g4, g5, g6⟩ := hall d hx
      refine ⟨g1, g2, g3, g4, ?_, g6⟩
      intro hbi
      obtain ⟨f1, f2⟩ := g5 hbi
      exact ⟨f1, hmono _ f2⟩
    · rw [List.mem_singleton] at hx
      subst hx
      refine ⟨?_, hsz0, hsz8, hsz65, ?_, ?_⟩
      · show (nm.take 19).length ≤ 19
        rw [List.length_take]
        omega
      · intro h
        obtain ⟨f1, f2⟩ := hbt h
        exact ⟨findBuiltin_take19_some f1, f2⟩
      · intro h
        obtain ⟨f1, f2⟩ := hbf h
        exact ⟨findBuiltin_take19_none f1, f2⟩

theorem built_regInv {pfs0 pfs : PageFeatureSetData} (h : BuiltFrom pfs0 pfs)
    (h0 : RegInv pfs0) : RegInv pfs := by
  induction h with
  | refl => exact h0
  | step p2 name size hb hok ih => exact regInv_add _ _ _ ih hok

theorem built_inv {pfs : PageFeatureSetData} (h : Built pfs) : RegInv pfs := by
  obtain ⟨nm, cap, maxf, hb⟩ := h
  exact built_regInv hb (regInv_new nm cap maxf)

theorem runningOffsets_assign :
    ∀ (l : List AllocatedPageFeatureDesc) (t : Nat),
      t + (l.map (fun d => d.size)).sum < 65536 →
      RunningOffsets t (assignOffsets t l) := by
  intro l
  induction l with
  | nil => intro t _; trivial
  | cons d ds ih =>
    intro t h
    simp only [List.map_cons, List.sum_cons] at h
    refine ⟨?_, ?_⟩
    · show u16 t = t
      exact u16_eq_of_lt (by omega)
    · show RunningOffsets (t + d.size) (assignOffsets (t + d.size) ds)
      exact ih (t + d.size) (by omega)

theorem runningOffsets_of_W :
    ∀ (ds : List AllocatedPageFeatureDesc) (t : Nat),
      t + (ds.map (fun d => d.size)).sum < 65536 →
      RunningOffsetsW t ds → RunningOffsets t ds := by
  intro ds
  induction ds with
  | nil => intro t _ _; trivial
  | cons d es ih =>
    intro t h hw
    obtain ⟨h1, h2⟩ := hw
    simp only [List.map_cons, List.sum_cons] at h
    exact ⟨by rw [h1]; exact u16_eq_of_lt (by omega),
      ih (t + d.size) (by omega) h2⟩

theorem optimize_spec (pfs : PageFeatureSetData) (hinv : RegInv pfs)
    (hnames : (pfs.feats.map (fun d => d.name)).Nodup)
    (hsum : (pfs.feats.map (fun d => d.size)).sum < 65536) :
    ((OptimizePageFeatureSet pfs).feats.map descKey).Perm
      (pfs.feats.map descKey) ∧
    RunningOffsets 0 (OptimizePageFeatureSet pfs).feats ∧
    (OptimizePageFeatureSet pfs).bytes_used = pfs.bytes_used ∧
    (OptimizePageFeatureSet pfs).bytes_managed = pfs.bytes_managed ∧
    (OptimizePageFeatureSet pfs).locked = pfs.locked := by
  obtain ⟨hlock, hman, hused, hrow, hall⟩ := hinv
  rw [OptimizePageFeatureSet_eq]
  split
  · exact ⟨List.Perm.refl _, runningOffsets_of_W pfs.feats 0
      (by omega) hrow, rfl, rfl, rfl⟩
  · have hb : ∀ d ∈ pfs.feats, d.isbuiltin = true →
        d.builtin < PF_MAX_FEATURE ∧
        pfs.builtin_bitmap.testBit d.builtin = true := by
      intro d hd hbi
      obtain ⟨f1, f2⟩ := (hall d hd).2.2.2.2.1 hbi
      exact ⟨(findBuiltin_name f1).2, f2⟩
    have hinj : ∀ d ∈ pfs.feats, ∀ e ∈ pfs.feats, d.isbuiltin = true →
        e.isbuiltin = true → d.builtin = e.builtin → d = e := by
      intro d hd e he hbd hbe hde
      obtain ⟨f1, _⟩ := (hall d hd).2.2.2.2.1 hbd
      obtain ⟨g1, _⟩ := (hall e he).2.2.2.2.1 hbe
      have hdn : builtinName d.builtin = d.name := (findBuiltin_name f1).1
      have hen : builtinName e.builtin = e.name := (findBuiltin_name g1).1
      have heq : d.name = e.name := by rw [← hdn, ← hen, hde]
      exact List.inj_on_of_nodup_map hnames hd he heq
    have hperm : (optB pfs ++
        pfs.feats.filter (fun d => !d.isbuiltin)).Perm pfs.feats :=
      (List.Perm.append_right _ (optB_perm hnames hb hinj)).trans
        (List.filter_append_perm _ _)
    have hsum2 : ((optB pfs ++
        pfs.feats.filter (fun d => !d.isbuiltin)).map
          (fun d => d.size)).sum = (pfs.feats.map (fun d => d.size)).sum :=
      (hperm.map (fun d => d.size)).sum_eq
    refine ⟨?_, ?_, rfl, rfl, rfl⟩
    · show ((assignOffsets 0 (optB pfs ++
        pfs.feats.filter (fun d => !d.isbuiltin))).map descKey).Perm
          (pfs.feats.map descKey)
      rw [assignOffsets_map_key]
      exact hperm.map descKey
    · show RunningOffsets 0 (assignOffsets 0 (optB pfs ++
        pfs.feats.filter (fun d => !d.isbuiltin)))
      exact runningOffsets_assign _ 0 (by omega)

/-- C4 (corrected, amended): for a registry built from `NewPageFeatureSet`
only by successful `PageFeatureSetAddFeatureByName` calls whose stored
names are pairwise distinct, nonempty, free of `=`, not starting with
whitespace, with at most `MAX_PAGE_FEATURES` features and total reserved
bytes at most `MaxReservedPageSize` (< 2^16), `WritePageFeatureSet`
succeeds and `ReadPageFeatureSet` of the written content succeeds,
returning a registry whose descriptor list equals that of the written
(optimized, locked) registry exactly: in particular it holds the same
multiset of (name, size) pairs as the original registry and resolves
every built-in feature to the same offset as the written registry. -/
theorem C4_persistence_roundtrip (pfs : PageFeatureSetData)
    (maxReserved : Nat) (nm2 : List Char)
    (hbuilt : Built pfs)
    (hnd : (pfs.feats.map (fun d => d.name)).Nodup)
    (hnames : ∀ d ∈ pfs.feats, d.name ≠ [] ∧ '=' ∉ d.name ∧
      isSpaceChar d.name.headI = false)
    (hcnt : pfs.feats.length ≤ MAX_PAGE_FEATURES)
    (hsum : (pfs.feats.map (fun d => d.size)).sum ≤ maxReserved)
    (hmax : maxReserved < 65536) :
    ∃ content pfsW pfsR,
      WritePageFeatureSet pfs = some (content, pfsW) ∧
      ReadPageFeatureSet maxReserved nm2 content = some pfsR ∧
      pfsR.feats = pfsW.feats ∧
      (pfsR.feats.map (fun d => (d.name, d.size))).Perm
        (pfs.feats.map (fun d => (d.name, d.size))) ∧
      (∀ blcksz i, PageFeatureSetFeatureOffset blcksz pfsR i =
        PageFeatureSetFeatureOffset blcksz pfsW i) := by
  have hinv := built_inv hbuilt
  have hS : (pfs.feats.map (fun d => d.size)).sum < 65536 := by omega
  obtain ⟨hperm, hro, hbu, hbm, hlkO⟩ := optimize_spec pfs hinv hnd hS
  obtain ⟨hlockI, hmanI, husedI, hrowI, hallI⟩ := hinv
  set pfs1 := OptimizePageFeatureSet pfs with hpfs1
  have hszperm : (pfs1.feats.map (fun d => d.size)).Perm
      (pfs.feats.map (fun d => d.size)) := by
    have h := hperm.map (fun k => k.2.1)
    rw [List.map_map, List.map_map] at h
    simpa [Function.comp, descKey] using h
  have hsum1 : (pfs1.feats.map (fun d => d.size)).sum =
      (pfs.feats.map (fun d => d.size)).sum := hszperm.sum_eq
  have hnmperm : (pfs1.feats.map (fun d => d.name)).Perm
      (pfs.feats.map (fun d => d.name)) := by
    have h := hperm.map (fun k => k.1)
    rw [List.map_map, List.map_map] at h
    simpa [Function.comp, descKey] using h
  have hnd1 : (pfs1.feats.map (fun d => d.name)).Nodup :=
    hnmperm.nodup_iff.mpr hnd
  have hpairperm : (pfs1.feats.map (fun d => (d.name, d.size))).Perm
      (pfs.feats.map (fun d => (d.name, d.size))) := by
    have h := hperm.map (fun k => (k.1, k.2.1))
    rw [List.map_map, List.map_map] at h
    simpa [Function.comp, descKey] using h
  have hlen1 : pfs1.feats.length = pfs.feats.length := by
    have h := hperm.length_eq
    simpa using h
  have hall1 : ∀ d ∈ pfs1.feats, d.name ≠ [] ∧ d.name.length ≤ 19 ∧
      '=' ∉ d.name ∧ isSpaceChar d.name.headI = false ∧ d.size ≠ 0 ∧
      d.size % 8 = 0 ∧
      (d.isbuiltin = true → findBuiltin d.name = some d.builtin) ∧
      (d.isbuiltin = false → findBuiltin d.name = none ∧ d.builtin = 0) := by
    intro d hd
    have hk : descKey d ∈ pfs.feats.map descKey :=
      hperm.mem_iff.mp (List.mem_map_of_mem _ hd)
    obtain ⟨e, he, hkey⟩ := List.mem_map.mp hk
    have hcomp : e.name = d.name ∧ e.size = d.size ∧
        e.isbuiltin = d.isbuiltin ∧ e.builtin = d.builtin := by
      unfold descKey at hkey
      simpa [Prod.ext_iff] using hkey
    obtain ⟨hc1, hc2, hc3, hc4⟩ := hcomp
    obtain ⟨w1, w2, w3⟩ := hnames e he
    obtain ⟨v1, v2, v3, v4, v5, v6⟩ := hallI e he
    rw [← hc1, ← hc2, ← hc3, ← hc4]
    exact ⟨w1, v1, w2, w3, v2, v3, fun hb => (v5 hb).1, v6⟩
  have hsz0 : ∀ d ∈ pfs1.feats, d.size ≠ 0 :=
    fun d hd => (hall1 d hd).2.2.2.2.1
  have hB : pfs1.bytes_used = (pfs1.feats.map (fun d => d.size)).sum := by
    rw [hbu, husedI, u16_eq_of_lt hS, ← hsum1]
  have h20 : MAX_PAGE_FEATURES = 20 := rfl
  have hwloop := writeFeatLoop_of pfs1.feats 0 hro hsz0
  have hw : WritePageFeatureSet pfs =
      some (("features ".toList ++ showNat pfs1.feats.length ++
          ' ' :: showNat pfs1.bytes_used ++ ['\n']) ++ catBody pfs1.feats,
        { pfs1 with locked := true }) := by
    unfold WritePageFeatureSet
    dsimp only
    rw [← hpfs1]
    rw [hwloop]
    dsimp only
    rw [if_neg (by rw [hB]; omega : ¬ (0 +
      (pfs1.feats.map (fun d => d.size)).sum ≠ pfs1.bytes_used))]
  have hcontent : ("features ".toList ++ showNat pfs1.feats.length ++
      ' ' :: showNat pfs1.bytes_used ++ ['\n']) ++ catBody pfs1.feats =
      "features ".toList ++ (showNat pfs1.feats.length ++
        ' ' :: (showNat pfs1.bytes_used ++ '\n' :: catBody pfs1.feats)) := by
    simp [List.append_assoc]
  have hbody : (catBody pfs1.feats).dropWhile isSpaceChar =
      catBody pfs1.feats :=
    catBody_dropWhile _ (fun x hx => ⟨(hall1 x hx).1, (hall1 x hx).2.2.2.1⟩)
  obtain ⟨pfsOut, hrun, hfeatsOut, hlkOut⟩ :=
    readFeatLoop_replay pfs1.feats ((catBody pfs1.feats).length + 1)
      (NewPageFeatureSet nm2 ((pfs1.bytes_used : Int)).toNat
        ((pfs1.feats.length : Int)).toNat)
      (pfs1.feats.length : Int) (pfs1.bytes_used : Int) 0
      (by have := catBody_length_ge pfs1.feats; omega)
      rfl
      (by show u16 pfs1.bytes_used < 65536
          unfold u16
          omega)
      (by show 0 + pfs1.feats.length ≤ u16 pfs1.feats.length
          rw [u16_eq_of_lt (by omega)]
          omega)
      (by show 0 + (pfs1.feats.map (fun d => d.size)).sum ≤
            u16 pfs1.bytes_used
          rw [hB, u16_eq_of_lt (by omega)]
          omega)
      hnd1
      hall1
      hro
      (by omega)
      (by show (pfs1.bytes_used : Int) = ((0 : Nat) : Int) +
            ((((pfs1.feats.map (fun d => d.size)).sum : Nat)) : Int)
          rw [hB]
          omega)
  have hfe : pfsOut.feats = pfs1.feats := by
    simpa [NewPageFeatureSet] using hfeatsOut
  have hread : ReadPageFeatureSet maxReserved nm2
      (("features ".toList ++ showNat pfs1.feats.length ++
        ' ' :: showNat pfs1.bytes_used ++ ['\n']) ++ catBody pfs1.feats) =
      some pfsOut := by
    unfold ReadPageFeatureSet
    rw [hcontent, parseHeader_content _ _ _ hbody]
    dsimp only
    rw [if_neg (by omega :
      ¬ ((pfs1.feats.length : Int) < 0 ∨
        (pfs1.feats.length : Int) > (MAX_PAGE_FEATURES : Int)))]
    rw [if_neg (by rw [hB]; omega :
      ¬ ((pfs1.bytes_used : Int) < 0 ∨
        (pfs1.bytes_used : Int) > (maxReserved : Int)))]
    exact hrun
  refine ⟨_, _, pfsOut, hw, hread, ?_, ?_, ?_⟩
  · show pfsOut.feats = pfs1.feats
    exact hfe
  · rw [hfe]
    exact hpairperm
  · intro blcksz i
    unfold PageFeatureSetFeatureOffset PageFeatureSetNamedFeatureOffset
    rw [hfe]

/-- A registry built by two successful adds: the built-in
"encryption_tags" with requested size 16, then the user feature "audit"
with requested size 8. -/
def pfsRound : PageFeatureSetData :=
  (PageFeatureSetAddFeatureByName
    (PageFeatureSetAddFeatureByName (NewPageFeatureSet "t".toList 96 4)
      "encryption_tags".toList 16).2 "audit".toList 8).2

/-- Witness for C4 at a concrete registry with one built-in and one user
feature. -/
theorem C4_persistence_roundtrip_witness :
    ∃ content pfsW pfsR,
      WritePageFeatureSet pfsRound = some (content, pfsW) ∧
      ReadPageFeatureSet 256 "r".toList content = some pfsR ∧
      pfsR.feats = pfsW.feats ∧
      (pfsR.feats.map (fun d => (d.name, d.size))).Perm
        (pfsRound.feats.map (fun d => (d.name, d.size))) ∧
      (∀ blcksz i, PageFeatureSetFeatureOffset blcksz pfsR i =
        PageFeatureSetFeatureOffset blcksz pfsW i) :=
  C4_persistence_roundtrip pfsRound 256 "r".toList
    ⟨"t".toList, 96, 4,
      BuiltFrom.step _ _ "audit".toList 8
        (BuiltFrom.step _ _ "encryption_tags".toList 16
          (BuiltFrom.refl _) (by decide)) (by decide)⟩
    (by decide) (by decide) (by decide) (by decide) (by decide)

/-- A registry built by one successful add whose feature name is empty
(the code accepts it). -/
def pfsEmptyName : PageFeatureSetData :=
  (PageFeatureSetAddFeatureByName (NewPageFeatureSet "x".toList 16 4)
    [] 8).2

/-- Counterexample to C4 as stated: a registry built only by successful
adds (one add, of an empty feature name) for which `WritePageFeatureSet`
succeeds but `ReadPageFeatureSet` of the written content fails (the
`%20[^=]` conversion cannot match an empty name, so the loop stops early
and the count check aborts). -/
theorem C4_counterexample :
    (PageFeatureSetAddFeatureByName (NewPageFeatureSet "x".toList 16 4)
      [] 8).1 = true ∧
    ((WritePageFeatureSet pfsEmptyName).map (fun cw =>
      (ReadPageFeatureSet 256 "r".toList cw.1).isSome)) = some false := by
  exact ⟨by decide, by decide⟩
